import Mathlib

/-!
# Verification of the AlgoPlus graph engine (`src/graph/graph.h`)

This file gives a shallow embedding of the unweighted `graph<T>` and the
weighted `weighted_graph<T>` classes of the repository, instantiated at an
integral vertex type (`T = Int`, matching uses such as `graph<int>`; the
code passes `-1` as a sentinel parent, so vertices are modelled as `Int`).

Modelling conventions, fixed once for the whole file:

* `std::unordered_map` / `std::unordered_set` iterate in an unspecified
  order; the embedding fixes the order to *first-insertion order*, which is
  one legal behaviour.  Wherever a claim's verdict could depend on that
  choice this is noted next to the theorem.
* Each graph is represented by its construction trace: the `_type` string
  and the list of `add_edge` calls, in order.  The adjacency list and the
  element set are derived from that trace exactly as the C++ mutations
  build them (`adj[u].push_back(v)`, `_elements.insert(u)` …).  In addition
  the *key set* of the `adj` map is tracked explicitly, because
  `operator[]` on `std::unordered_map` inserts a default entry for a
  missing key — an effect one of the claims is about.
* `while` loops are modelled as fuel-indexed recursions returning
  `Option`; `none` marks fuel exhaustion.  Fuel bounds are chosen
  generously and, where a claim needs it, the bounds are *proved*
  sufficient, so `none` coincides with genuine non-termination of the C++
  loop.
* The `double` values used by `shortest_path`/`bellman_ford` are exact on
  the integral weights the class stores; `bellman_ford` additionally uses
  IEEE `±infinity`, modelled by the three-valued type `EDouble` below.
  The rounding of `double` on astronomically large sums is outside the
  model (weights themselves enter through `int64_t`).
-/

/-- `std::unordered_set<T>::insert` on the model's insertion-order list:
append the element if it is not present. -/
def insElem (l : List Int) (x : Int) : List Int :=
  if x ∈ l then l else l ++ [x]

/-- The `_elements` set built by a sequence of `add_edge(u, v)` calls:
both endpoints are inserted, `u` first (lines 96–97 of the source). -/
def elemsOfEdges (es : List (Int × Int)) : List Int :=
  es.foldl (fun l e => insElem (insElem l e.1) e.2) []

/-- State of an unweighted `graph<T>` object.

* `gtype` is the `_type` member (the constructor leaves it `""` when the
  mode string is not recognised).
* `edges` is the sequence of `add_edge(u, v)` calls performed so far.
* `adjKeys` is the key set of the `adj` unordered map, in first-creation
  order.  Keys are created both by `add_edge` pushes and by any
  `adj[x]` (`operator[]`) read performed by the query algorithms. -/
structure Graph where
  gtype : String
  edges : List (Int × Int)
  adjKeys : List Int
  deriving Repr, DecidableEq

/-- The `_elements` member, derived from the `add_edge` trace. -/
def Graph.elements (g : Graph) : List Int := elemsOfEdges g.edges

/-- What one `add_edge(u, v)` call pushes onto `adj[x]`: an undirected
graph pushes both `v` onto `adj[u]` and `u` onto `adj[v]`; any other
`_type` (this includes `"directed"` and the unrecognised-mode `""`)
pushes only `v` onto `adj[u]` (source lines 89–98). -/
def nbrOfEdge (t : String) (x : Int) (e : Int × Int) : List Int :=
  if t = "undirected" then
    (if e.1 = x then [e.2] else []) ++ (if e.2 = x then [e.1] else [])
  else
    (if e.1 = x then [e.2] else [])

/-- The neighbour vector `adj[x]` of the unweighted graph, derived from
the `add_edge` trace. -/
def Graph.adj (g : Graph) (x : Int) : List Int :=
  g.edges.foldl (fun l e => l ++ nbrOfEdge g.gtype x e) []

/-- `graph<T>::add_edge` (source lines 89–98).  Adjacency-map keys are
created for `u` (and for `v` in the undirected case). -/
def Graph.add_edge (g : Graph) (u v : Int) : Graph :=
  if g.gtype = "undirected" then
    { g with edges := g.edges ++ [(u, v)], adjKeys := insElem (insElem g.adjKeys u) v }
  else
    { g with edges := g.edges ++ [(u, v)], adjKeys := insElem g.adjKeys u }

/-- Convenience: a graph built by the constructor from a mode string and a
replayed list of edges (each through `add_edge`, as the constructor does). -/
def mkGraph (t : String) (es : List (Int × Int)) : Graph :=
  es.foldl (fun g e => g.add_edge e.1 e.2) ⟨t, [], []⟩

/-- `graph<T>::empty` (line 132). -/
def Graph.isEmpty (g : Graph) : Bool := g.elements.isEmpty

/-- One `indeg[y]++` pass over a neighbour list. -/
def bumpList (f : Int → Int) (ys : List Int) : Int → Int :=
  ys.foldl (fun f y => fun v => if v = y then f v + 1 else f v) f

/-- The in-degree map built by both `cycle()` and `topological_sort()`:
`for (x : _elements) for (y : adj[x]) indeg[y]++`
(source lines 360–364 and 389–393). -/
def kahnIndeg (elems : List Int) (adjf : Int → List Int) : Int → Int :=
  elems.foldl (fun f x => bumpList f (adjf x)) (fun _ => 0)

/-- The initial Kahn queue: elements with zero in-degree, in element
order (source lines 366–370 and 396–401). -/
def kahnQ0 (elems : List Int) (adjf : Int → List Int) : List Int :=
  elems.filter (fun x => kahnIndeg elems adjf x == 0)

/-- Inner loop of `cycle()` (lines 376–380): for each `x` in
`adj[current]`, `if (--indeg[x] == 0) q.push(x)`.  There is no visited
guard in `cycle()`. -/
def cycleProcess : List Int → List Int → (Int → Int) → List Int × (Int → Int)
  | [], q, indeg => (q, indeg)
  | x :: rest, q, indeg =>
      let indeg2 := fun v => if v = x then indeg v - 1 else indeg v
      if indeg2 x = 0 then cycleProcess rest (q ++ [x]) indeg2
      else cycleProcess rest q indeg2

/-- The `while (!q.empty())` loop of `cycle()` (lines 372–381).  The
returned list is the sequence of popped vertices, whose length is the
`visited` counter of the source.  `none` = fuel exhausted (shown
unreachable for the fuel used by `Graph.cycle`, see `cycleLoop_fuel`). -/
def cycleLoop (adjf : Int → List Int) :
    Nat → List Int → (Int → Int) → List Int → Option (List Int)
  | _, [], _, pops => some pops
  | 0, _ :: _, _, _ => none
  | fuel + 1, cur :: q, indeg, pops =>
      let s := cycleProcess (adjf cur) q indeg
      cycleLoop adjf fuel s.1 s.2 (pops ++ [cur])

/-- The popped-vertex sequence of the Kahn run performed by `cycle()`. -/
def cyclePops (elems : List Int) (adjf : Int → List Int) : Option (List Int) :=
  cycleLoop adjf (elems.length + 1) (kahnQ0 elems adjf) (kahnIndeg elems adjf) []

/-- `graph<T>::cycle` (lines 355–383).  The source returns
`visited == 0`, i.e. *true iff no vertex was ever removed by the Kahn
process*.  The `getD true` branch is fuel exhaustion, proved unreachable
by `cycleLoop_fuel`. -/
def Graph.cycle (g : Graph) : Bool :=
  ((cyclePops g.elements g.adj).map (fun pops => pops.length == 0)).getD true

/-- The number of vertices removed by the Kahn process of `cycle()` —
the final value of the `visited` counter (line 358/375). -/
def Graph.cycleVisited (g : Graph) : Nat :=
  ((cyclePops g.elements g.adj).map List.length).getD 0

/-- Inner loop of `topological_sort()` (lines 407–414): like
`cycleProcess` but guarded by the `visited` map, which is extended
exactly when a vertex is enqueued. -/
def topoProcess : List Int → List Int → (Int → Int) → List Int →
    List Int × (Int → Int) × List Int
  | [], q, indeg, vis => (q, indeg, vis)
  | x :: rest, q, indeg, vis =>
      if x ∈ vis then topoProcess rest q indeg vis
      else
        let indeg2 := fun v => if v = x then indeg v - 1 else indeg v
        if indeg2 x = 0 then topoProcess rest (q ++ [x]) indeg2 (vis ++ [x])
        else topoProcess rest q indeg2 vis

/-- The `while` loop of `topological_sort()` (lines 403–415); the popped
vertex is appended to the output before its neighbours are processed. -/
def topoLoop (adjf : Int → List Int) :
    Nat → List Int → (Int → Int) → List Int → List Int → Option (List Int)
  | _, [], _, _, out => some out
  | 0, _ :: _, _, _, _ => none
  | fuel + 1, cur :: q, indeg, vis, out =>
      let s := topoProcess (adjf cur) q indeg vis
      topoLoop adjf fuel s.1 s.2.1 s.2.2 (out ++ [cur])

/-- `topological_sort` over abstract elements/adjacency; the initial
queue members are marked visited (lines 396–401). -/
def topoSortG (elems : List Int) (adjf : Int → List Int) : List Int :=
  (topoLoop adjf (elems.length + 1) (kahnQ0 elems adjf)
    (kahnIndeg elems adjf) (kahnQ0 elems adjf) []).getD []

/-- `graph<T>::topological_sort` (lines 385–418). -/
def Graph.topological_sort (g : Graph) : List Int :=
  topoSortG g.elements g.adj

/-- `u` occurs strictly before `v` in the list `l` (both occur). -/
def precedesIn (l : List Int) (u v : Int) : Prop :=
  u ∈ l ∧ v ∈ l ∧ l.indexOf u < l.indexOf v

instance (l : List Int) (u v : Int) : Decidable (precedesIn l u v) := by
  unfold precedesIn; infer_instance

/-! ## The weighted graph `weighted_graph<T>` -/

/-- State of a `weighted_graph<T>` object: the `_type` string and the
sequence of `add_edge(u, v, w)` calls.  (The weight is taken as `int64_t`
by `add_edge` and stored in a `double`; integral weights are exact, so the
model keeps them as `Int`.)  No query of the weighted class is part of a
claim about `operator[]`-created keys, so the key list is derived, not
stored. -/
structure WGraph where
  gtype : String
  wedges : List (Int × Int × Int)
  deriving Repr, DecidableEq

/-- The `_elements` member of the weighted graph: both endpoints of every
`add_edge` are inserted, whatever the `_type` (lines 687–688). -/
def WGraph.elements (g : WGraph) : List Int :=
  elemsOfEdges (g.wedges.map (fun e => (e.1, e.2.1)))

/-- What one weighted `add_edge(u, v, w)` call pushes onto `adj[x]`
(lines 680–689): undirected pushes `(v,w)` on `adj[u]` and `(u,w)` on
`adj[v]`; directed pushes only `(v,w)` on `adj[u]`; any other `_type`
pushes nothing. -/
def wnbrOfEdge (t : String) (x : Int) (e : Int × Int × Int) : List (Int × Int) :=
  if t = "undirected" then
    (if e.1 = x then [(e.2.1, e.2.2)] else [])
      ++ (if e.2.1 = x then [(e.1, e.2.2)] else [])
  else if t = "directed" then
    (if e.1 = x then [(e.2.1, e.2.2)] else [])
  else []

/-- The neighbour vector `adj[x]` of the weighted graph, derived from
the `add_edge` trace. -/
def WGraph.adj (g : WGraph) (x : Int) : List (Int × Int) :=
  g.wedges.foldl (fun l e => l ++ wnbrOfEdge g.gtype x e) []

/-- The key set of the weighted `adj` map created by the `add_edge`
pushes, in first-creation order (used by `bellman_ford`, which iterates
over `adj`). -/
def WGraph.adjKeys (g : WGraph) : List Int :=
  g.wedges.foldl
    (fun l e =>
      if g.gtype = "undirected" then insElem (insElem l e.1) e.2.1
      else if g.gtype = "directed" then insElem l e.1
      else l)
    []

/-- `weighted_graph<T>::add_edge` as edge-trace extension. -/
def WGraph.add_edge (g : WGraph) (u v w : Int) : WGraph :=
  { g with wedges := g.wedges ++ [(u, v, w)] }

/-- A weighted graph built by the constructor from a mode string and a
replayed edge list (lines 638–642). -/
def mkWGraph (t : String) (es : List (Int × Int × Int)) : WGraph :=
  es.foldl (fun g e => g.add_edge e.1 e.2.1 e.2.2) ⟨t, []⟩

/-- The neighbour-vertex list (`x.first` projections) used by the
weighted `cycle`/`topological_sort`, which read only `.first` of each
adjacency pair (lines 1038, 1053, 1067, 1084). -/
def WGraph.nbr (g : WGraph) (x : Int) : List Int :=
  (g.adj x).map Prod.fst

/-- `weighted_graph<T>::cycle` (lines 1032–1060): the same Kahn loop as
the unweighted `cycle`, over the pair adjacency. -/
def WGraph.cycle (g : WGraph) : Bool :=
  ((cyclePops g.elements g.nbr).map (fun pops => pops.length == 0)).getD true

/-- `weighted_graph<T>::topological_sort` (lines 1062–1095). -/
def WGraph.topological_sort (g : WGraph) : List Int :=
  topoSortG g.elements g.nbr

/-- The value `std::numeric_limits<int64_t>::max()` after conversion to
the `double` entries of the `dist` map: `2^63` exactly (the nearest
`double` to `2^63 - 1`).  Used purely as a sentinel. -/
def INF : Int := 9223372036854775808

/-- Relaxation pass of the DAG branch of `shortest_path` over
`adj[current]` (lines 916–921): on success the target is pushed on the
work stack.  `dist[current]` is re-read on every step (a self-loop could
change it). -/
def dagProcess (cur : Int) :
    List (Int × Int) → List Int → (Int → Int) → List Int × (Int → Int)
  | [], stk, dist => (stk, dist)
  | (x, w) :: rest, stk, dist =>
      if dist x > dist cur + w then
        dagProcess cur rest (x :: stk) (fun v => if v = x then dist cur + w else dist v)
      else dagProcess cur rest stk dist

/-- The DAG-branch work loop of `shortest_path` (lines 912–923).  The
reversed `top_sort` vector used as a stack (`back`/`pop_back`/
`push_back`) is modelled as a list popped and pushed at the head, so the
initial stack is the topological order itself. -/
def dagLoop (adjw : Int → List (Int × Int)) :
    Nat → List Int → (Int → Int) → Option (Int → Int)
  | _, [], dist => some dist
  | 0, _ :: _, _ => none
  | fuel + 1, cur :: stk, dist =>
      if dist cur = INF then dagLoop adjw fuel stk dist
      else
        dagLoop adjw fuel (dagProcess cur (adjw cur) stk dist).1
          (dagProcess cur (adjw cur) stk dist).2

/-- `operator>` of `std::pair` (lexicographic) as the "is not worse"
test used to extract the minimum of the `std::greater` priority queue. -/
def pairLe (a b : Int × Int) : Bool :=
  decide (a.1 < b.1 ∨ (a.1 = b.1 ∧ a.2 ≤ b.2))

/-- Extract the minimum pair of a nonempty priority-queue multiset
(given as head + rest) and the remaining multiset. -/
def pqPopNE (p : Int × Int) (rest : List (Int × Int)) :
    (Int × Int) × List (Int × Int) :=
  let m := rest.foldl (fun m q => if pairLe m q then m else q) p
  (m, (p :: rest).erase m)

/-- Relaxation pass of the Dijkstra branch over `adj[currentNode]`
(lines 939–944), with `currentDist` the priority of the popped entry. -/
def dijProcess (cd : Int) :
    List (Int × Int) → List (Int × Int) → (Int → Int) →
    List (Int × Int) × (Int → Int)
  | [], pq, dist => (pq, dist)
  | (x, w) :: rest, pq, dist =>
      if cd + w < dist x then
        dijProcess cd rest (pq ++ [(cd + w, x)]) (fun v => if v = x then cd + w else dist v)
      else dijProcess cd rest pq dist

/-- The Dijkstra work loop of `shortest_path` (lines 935–945); entries
are `(distance, vertex)` pairs, popped in `std::greater` pair order. -/
def dijLoop (adjw : Int → List (Int × Int)) :
    Nat → List (Int × Int) → (Int → Int) → Option (Int → Int)
  | _, [], dist => some dist
  | 0, _ :: _, _ => none
  | fuel + 1, p :: rest, dist =>
      dijLoop adjw fuel
        (dijProcess (pqPopNE p rest).1.1 (adjw (pqPopNE p rest).1.2) (pqPopNE p rest).2 dist).1
        (dijProcess (pqPopNE p rest).1.1 (adjw (pqPopNE p rest).1.2) (pqPopNE p rest).2 dist).2

/-- Fuel that provably dominates both `shortest_path` work loops on any
run that terminates with nonnegative weights (see the potential-function
lemmas below): one unit per loop iteration never exceeds
`stack + sum of clamped distances`, which is at most
`(n+1)*(INF+1)`. -/
def wFuel (g : WGraph) : Nat :=
  (g.elements.length + 1) * 9223372036854775809

/-- The initial `dist` map of both `shortest_path` branches
(lines 907–911 / 926–934): every `_elements` member is set to the
sentinel, then `dist[start] = 0`.  A key never written reads as the
`double` default `0` (such reads never occur in the algorithm). -/
def spDist0 (elems : List Int) (start : Int) : Int → Int :=
  fun v => if v = start then 0 else if v ∈ elems then INF else 0

/-- `weighted_graph<T>::shortest_path` (lines 893–949).  `some r` is the
returned `double`; `none` is a run of the C++ loop that never
terminates. -/
def WGraph.shortest_path (g : WGraph) (start e : Int) : Option Int :=
  if start ∉ g.elements then some (-1)
  else if e ∉ g.elements then some (-1)
  else if g.cycle = false ∧ g.gtype = "directed" then
    match dagLoop g.adj (wFuel g) g.topological_sort (spDist0 g.elements start) with
    | none => none
    | some dist => some (if dist e = INF then -1 else dist e)
  else
    match dijLoop g.adj (wFuel g) [(0, start)] (spDist0 g.elements start) with
    | none => none
    | some dist => some (if dist e = INF then -1 else dist e)

/-- Push pass of `prim` over `adj[current.first]` (lines 1113–1117):
adjacency pairs `(neighbour, weight)` are pushed verbatim when the
neighbour is unvisited. -/
def primPush (visited : List Int) (nbrs : List (Int × Int))
    (pq : List (Int × Int)) : List (Int × Int) :=
  pq ++ nbrs.filter (fun x => !(visited.contains x.1))

/-- The work loop of `prim` (lines 1104–1118).  NOTE the source treats
`current.first` as the vertex and `current.second` as the weight, while
the initial push `make_pair(0, _temp)` puts `0` in the first slot and
the start vertex in the second; the model reproduces this verbatim. -/
def primLoop (adjw : Int → List (Int × Int)) :
    Nat → List (Int × Int) → List Int → Int → Option Int
  | _, [], _, cost => some cost
  | 0, _ :: _, _, _ => none
  | fuel + 1, p :: rest, visited, cost =>
      let pm := pqPopNE p rest
      let temp := pm.1.1
      if temp ∈ visited then primLoop adjw fuel pm.2 visited cost
      else
        let visited2 := visited ++ [temp]
        primLoop adjw fuel (primPush visited2 (adjw temp) pm.2) visited2 (cost + pm.1.2)

/-- Fuel bound for `prim`: one iteration per popped entry; at most
`1 + |adj 0| + Σ|adj v|` entries are ever pushed (each vertex's adjacency
is expanded at most once, and only vertices in `{0} ∪ elements` are ever
expanded). -/
def primFuel (g : WGraph) : Nat :=
  2 + (g.adj 0).length + (g.elements.map (fun v => (g.adj v).length)).sum

/-- `weighted_graph<T>::prim` (lines 1097–1120). -/
def WGraph.prim (g : WGraph) (start : Int) : Option Int :=
  primLoop g.adj (primFuel g) [(0, start)] [] 0

/-! ### `bellman_ford`: `double` distances with IEEE infinities -/

/-- The `double` values reachable in the `dist` map of `bellman_ford`:
`±infinity` and exact integers.  Adding a finite weight to an infinity
keeps the infinity; `<` orders `-inf < finite < +inf` (IEEE). -/
inductive EDouble where
  | negInf
  | fin (z : Int)
  | posInf
  deriving Repr, DecidableEq

def EDouble.addw : EDouble → Int → EDouble
  | negInf, _ => negInf
  | posInf, _ => posInf
  | fin z, w => fin (z + w)

def EDouble.blt : EDouble → EDouble → Bool
  | negInf, negInf => false
  | negInf, _ => true
  | fin _, negInf => false
  | fin a, fin b => a < b
  | fin _, posInf => true
  | posInf, _ => false

/-- The `std::unordered_map<T, double> dist` of `bellman_ford`, as an
association list with unique keys; only key membership and values are
observable. -/
abbrev DMap := List (Int × EDouble)

/-- `dist[k]` as an rvalue: `operator[]` default-inserts `0.0` for a
missing key. -/
def dGetIns (m : DMap) (k : Int) : EDouble × DMap :=
  match m.lookup k with
  | some d => (d, m)
  | none => (.fin 0, m ++ [(k, .fin 0)])

/-- `dist[k] = d`: update the entry, inserting the key if absent. -/
def dSet (m : DMap) (k : Int) (d : EDouble) : DMap :=
  if (m.lookup k).isSome then m.map (fun p => if p.1 = k then (k, d) else p)
  else m ++ [(k, d)]

/-- One edge step of `bellman_ford` (lines 1286–1288 resp. 1299–1301):
if `dist[j] + w < dist[target]` then write `dist[j] + w` (first phase)
or `-infinity` (second phase).  Both `operator[]` reads default-insert
`0.0` for missing keys. -/
def bfRelaxEdge (m : DMap) (j : Int) (e : Int × Int) (snd : Bool) : DMap :=
  if ((dGetIns m j).1.addw e.2).blt (dGetIns (dGetIns m j).2 e.1).1 then
    dSet (dGetIns (dGetIns m j).2 e.1).2 e.1
      (if snd then .negInf else (dGetIns m j).1.addw e.2)
  else (dGetIns (dGetIns m j).2 e.1).2

/-- One full pass over all edges: `for (j : adj) for (edge : adj[j])`
(lines 1284–1290). -/
def bfInner (adjw : Int → List (Int × Int)) (keys : List Int)
    (snd : Bool) (m : DMap) : DMap :=
  keys.foldl (fun m j => (adjw j).foldl (fun m e => bfRelaxEdge m j e snd) m) m

/-- `n`-fold iteration (the `for (i = 0; i < v - 1; i++)` loops). -/
def iterN (f : DMap → DMap) : Nat → DMap → DMap
  | 0, m => m
  | n + 1, m => iterN f n (f m)

/-- `weighted_graph<T>::bellman_ford` (lines 1270–1308): distances are
initialised to `+infinity` for every key of `adj` (in creation order),
`dist[start] = 0`, then `v-1` relaxation passes and `v-1` detection
passes that write `-infinity` on any further improvement. -/
def WGraph.bellman_ford (g : WGraph) (start : Int) : DMap :=
  iterN (bfInner g.adj g.adjKeys true) (g.adjKeys.length - 1)
    (iterN (bfInner g.adj g.adjKeys false) (g.adjKeys.length - 1)
      (dSet (g.adjKeys.foldl (fun m k => dSet m k .posInf) []) start (.fin 0)))

/-! ### Weighted traversals -/

/-- Neighbour expansion of the weighted `dfs` (lines 967–972): push each
unvisited neighbour on the stack (head = top) and mark it. -/
def pushNbrsW : List (Int × Int) → List Int → List Int → List Int × List Int
  | [], s, vis => (s, vis)
  | (x, _) :: rest, s, vis =>
      if x ∈ vis then pushNbrsW rest s vis
      else pushNbrsW rest (x :: s) (vis ++ [x])

/-- The counted inner loop of the weighted `dfs` (lines 962–973):
`size = s.size()` pops, each emitting the popped vertex and pushing its
unvisited neighbours.  (The stack cannot empty mid-count; the `[]` case
is defensive.) -/
def wdfsInner (adjw : Int → List (Int × Int)) :
    Nat → List Int → List Int → List Int → List Int × List Int × List Int
  | 0, s, vis, path => (s, vis, path)
  | _ + 1, [], vis, path => ([], vis, path)
  | i + 1, cur :: s, vis, path =>
      let r := pushNbrsW (adjw cur) s vis
      wdfsInner adjw i r.1 r.2 (path ++ [cur])

/-- The outer `while` of the weighted `dfs` (lines 961–974). -/
def wdfsLoop (adjw : Int → List (Int × Int)) :
    Nat → List Int → List Int → List Int → Option (List Int)
  | _, [], _, path => some path
  | 0, _ :: _, _, _ => none
  | fuel + 1, cur :: s, vis, path =>
      let r := wdfsInner adjw (cur :: s).length (cur :: s) vis path
      wdfsLoop adjw fuel r.1 r.2.1 r.2.2

/-- `weighted_graph<T>::dfs` (lines 951–976): empty graph or unknown
start returns the empty path before any traversal. -/
def WGraph.dfs (g : WGraph) (start : Int) : Option (List Int) :=
  if g.elements = [] ∨ start ∉ g.elements then some []
  else wdfsLoop g.adj (g.elements.length + 1) [start] [start] []

/-- Neighbour expansion of the weighted `bfs` (lines 993–998): enqueue at
the back. -/
def pushNbrsWQ : List (Int × Int) → List Int → List Int → List Int × List Int
  | [], q, vis => (q, vis)
  | (x, _) :: rest, q, vis =>
      if x ∈ vis then pushNbrsWQ rest q vis
      else pushNbrsWQ rest (q ++ [x]) (vis ++ [x])

/-- The counted inner loop of the weighted `bfs` (lines 988–999). -/
def wbfsInner (adjw : Int → List (Int × Int)) :
    Nat → List Int → List Int → List Int → List Int × List Int × List Int
  | 0, q, vis, path => (q, vis, path)
  | _ + 1, [], vis, path => ([], vis, path)
  | i + 1, cur :: q, vis, path =>
      let r := pushNbrsWQ (adjw cur) q vis
      wbfsInner adjw i r.1 r.2 (path ++ [cur])

/-- The outer `while` of the weighted `bfs` (lines 987–1000). -/
def wbfsLoop (adjw : Int → List (Int × Int)) :
    Nat → List Int → List Int → List Int → Option (List Int)
  | _, [], _, path => some path
  | 0, _ :: _, _, _ => none
  | fuel + 1, cur :: q, vis, path =>
      let r := wbfsInner adjw (cur :: q).length (cur :: q) vis path
      wbfsLoop adjw fuel r.1 r.2.1 r.2.2

/-- `weighted_graph<T>::bfs` (lines 978–1002). -/
def WGraph.bfs (g : WGraph) (start : Int) : Option (List Int) :=
  if g.elements = [] ∨ start ∉ g.elements then some []
  else wbfsLoop g.adj (g.elements.length + 1) [start] [start] []

/-! ### Unweighted traversals -/

/-- Neighbour expansion of the unweighted `dfs` (lines 291–296). -/
def pushNbrsU : List Int → List Int → List Int → List Int × List Int
  | [], s, vis => (s, vis)
  | x :: rest, s, vis =>
      if x ∈ vis then pushNbrsU rest s vis
      else pushNbrsU rest (x :: s) (vis ++ [x])

/-- The `while` loop of the unweighted `dfs` (lines 287–297): plain
pop-emit-expand, no counted inner loop. -/
def udfsLoop (adjf : Int → List Int) :
    Nat → List Int → List Int → List Int → Option (List Int)
  | _, [], _, path => some path
  | 0, _ :: _, _, _ => none
  | fuel + 1, cur :: s, vis, path =>
      let r := pushNbrsU (adjf cur) s vis
      udfsLoop adjf fuel r.1 r.2 (path ++ [cur])

/-- `graph<T>::dfs` (lines 278–299). -/
def Graph.dfs (g : Graph) (start : Int) : Option (List Int) :=
  if g.elements = [] ∨ start ∉ g.elements then some []
  else udfsLoop g.adj (g.elements.length + 1) [start] [start] []

/-- Neighbour expansion of the unweighted `bfs` (lines 316–321). -/
def pushNbrsUQ : List Int → List Int → List Int → List Int × List Int
  | [], q, vis => (q, vis)
  | x :: rest, q, vis =>
      if x ∈ vis then pushNbrsUQ rest q vis
      else pushNbrsUQ rest (q ++ [x]) (vis ++ [x])

/-- The counted inner loop of the unweighted `bfs` (lines 312–322). -/
def ubfsInner (adjf : Int → List Int) :
    Nat → List Int → List Int → List Int → List Int × List Int × List Int
  | 0, q, vis, path => (q, vis, path)
  | _ + 1, [], vis, path => ([], vis, path)
  | i + 1, cur :: q, vis, path =>
      let r := pushNbrsUQ (adjf cur) q vis
      ubfsInner adjf i r.1 r.2 (path ++ [cur])

/-- The outer `while` of the unweighted `bfs` (lines 310–323). -/
def ubfsLoop (adjf : Int → List Int) :
    Nat → List Int → List Int → List Int → Option (List Int)
  | _, [], _, path => some path
  | 0, _ :: _, _, _ => none
  | fuel + 1, cur :: q, vis, path =>
      let r := ubfsInner adjf (cur :: q).length (cur :: q) vis path
      ubfsLoop adjf fuel r.1 r.2.1 r.2.2

/-- `graph<T>::bfs` (lines 301–325). -/
def Graph.bfs (g : Graph) (start : Int) : Option (List Int) :=
  if g.elements = [] ∨ start ∉ g.elements then some []
  else ubfsLoop g.adj (g.elements.length + 1) [start] [start] []

/-! ### Constructors (`graph(std::string, ...)`) -/

/-- Outcome of running a constructor body.

* `ok g`     — the mode string was recognised; the initial edge list was
  replayed through `add_edge`.
* `caught g` — `std::invalid_argument` was thrown *and caught by the
  `catch` block inside the constructor itself* (lines 53–56 / 643–646):
  the message is written to `cerr`, the constructor returns normally,
  and the object is left with the default `_type` (`""`) and no edges
  (the throw precedes the replay loop).
* `propagated` — an exception escaped to the caller.  This constructor
  exists so that the claim "the error is raised to the caller" can be
  stated; the definitions below never produce it. -/
inductive CtorResult (α : Type) where
  | ok (g : α)
  | caught (g : α)
  | propagated
  deriving Repr, DecidableEq

/-- `true` iff an exception reached the caller. -/
def CtorResult.raised {α : Type} : CtorResult α → Bool
  | .propagated => true
  | _ => false

/-- The object the result carries (`propagated` carries none). -/
def CtorResult.obj {α : Type} : CtorResult α → Option α
  | .ok g => some g
  | .caught g => some g
  | .propagated => none

/-- `graph<T>::graph(std::string, std::vector<std::pair<T, std::vector<T>>>)`
(lines 39–57): mode validation, then replay of the initial adjacency list
through `add_edge` pair by pair. -/
def Graph.construct (t : String) (init : List (Int × List Int)) : CtorResult Graph :=
  if t = "directed" ∨ t = "undirected" then
    .ok (init.foldl (fun g p => p.2.foldl (fun g v => g.add_edge p.1 v) g) ⟨t, [], []⟩)
  else .caught ⟨"", [], []⟩

/-- `weighted_graph<T>::weighted_graph` (lines 631–647). -/
def WGraph.construct (t : String) (init : List (Int × Int × Int)) : CtorResult WGraph :=
  if t = "directed" ∨ t = "undirected" then .ok (mkWGraph t init)
  else .caught ⟨"", []⟩

/-! ### Concrete graphs used by the claims -/

/-- A directed graph holding the 2-cycle `3 → 4 → 3` next to the acyclic
edge `1 → 2`. -/
def gC1 : Graph := mkGraph "directed" [(1, 2), (3, 4), (4, 3)]

/-- The triangle of claim C3, vertices `A = 1`, `B = 2`, `C = 3`, weights
`A-B:1`, `B-C:2`, `A-C:3`. -/
def gC3 : WGraph := mkWGraph "undirected" [(1, 2, 1), (2, 3, 2), (1, 3, 3)]

/-- The same triangle with vertices renamed `A = 0`, `B = 1`, `C = 2`. -/
def gC3b : WGraph := mkWGraph "undirected" [(0, 1, 1), (1, 2, 2), (0, 2, 3)]

/-- The weighted DAG of claim C4. -/
def gC4 : WGraph := mkWGraph "directed" [(1, 2, 1), (1, 3, 4), (2, 4, 2), (3, 4, 1)]

/-- Claim C5's divergence witness: an undirected self-loop of weight `−1`
at vertex `0` (a negative cycle reachable from the start) plus a separate
component `7 — 8`, so that `7` is a present but unreachable end point. -/
def gC5 : WGraph := mkWGraph "undirected" [(0, 0, -1), (7, 8, 1)]

/-- Claim C6's graph: one undirected edge `A — B` of weight `−5`
(`A = 0`, `B = 1`). -/
def gC6 : WGraph := mkWGraph "undirected" [(0, 1, -5)]

/-- Claim C10's example graph: `A→B:5`, `B→C:5` with
`A = 0`, `B = 1`, `C = 2`. -/
def gC10 : WGraph := mkWGraph "directed" [(0, 1, 5), (1, 2, 5)]

/-- Claim C10's counterexample graph: `A→B:1`, `B→C:−5`. -/
def gC10b : WGraph := mkWGraph "directed" [(0, 1, 1), (1, 2, -5)]

/-- Potential function of the `shortest_path` work loops: the sum of the
clamped distances of all elements.  Each loop iteration strictly
decreases `container length + phi`. -/
def phi (elems : List Int) (dist : Int → Int) : Nat :=
  (elems.map (fun v => (dist v).toNat)).sum

/-- "At most zero" on the `double` values of `bellman_ford`
(`-infinity` counts, `+infinity` does not). -/
def EDouble.nonpos : EDouble → Prop
  | negInf => True
  | fin z => z ≤ 0
  | posInf => False

instance (d : EDouble) : Decidable d.nonpos := by
  cases d <;> simp only [EDouble.nonpos] <;> infer_instance

/-- Number of stored edge occurrences leading into `v` from the sources
listed in `S` (specification device for the in-degree bookkeeping of the
Kahn loops). -/
def fromS (adjf : Int → List Int) (S : List Int) (v : Int) : Nat :=
  (S.map (fun x => (adjf x).count v)).sum

/-! ### The public operations of `graph<T>` as state transformers (claim C8)

Each query is modelled together with the *exact list of keys* whose
`adj[...]` (`operator[]`) it reads, because a read of a missing key
inserts that key into the adjacency map.  The fuel bounds are generous
(every traversal marks a vertex visited when it is enqueued/pushed, so
the number of loop steps is bounded by the vertex count resp. the total
adjacency length); on fuel exhaustion the state reached so far is
returned. -/

/-- Insert the listed keys into the key set, in order, skipping those
already present. -/
def insKeys (ks : List Int) (l : List Int) : List Int := l.foldl insElem ks

/-- The stack traversal shared by `connected` (lines 475–488) and the
second Kosaraju pass (lines 521–535): pop, push unvisited neighbours,
and mark them; returns the visited set in marking order. -/
def exploreStack (adjf : Int → List Int) : Nat → List Int → List Int → List Int
  | _, [], vis => vis
  | 0, _ :: _, vis => vis
  | fuel + 1, cur :: s, vis =>
      let r := pushNbrsU (adjf cur) s vis
      exploreStack adjf fuel r.1 r.2

/-- The `explore` lambda of `connected_components` (lines 328–342):
queue traversal, returning the visited set. -/
def ccExplore (adjf : Int → List Int) : Nat → List Int → List Int → List Int
  | _, [], vis => vis
  | 0, _ :: _, vis => vis
  | fuel + 1, cur :: q, vis =>
      let r := pushNbrsUQ (adjf cur) q vis
      ccExplore adjf fuel r.1 r.2

/-- The element loop of `connected_components` (lines 344–351),
additionally returning the visited set (the keys read). -/
def ccLoop (adjf : Int → List Int) (fuel : Nat) :
    List Int → List Int → Int → Int × List Int
  | [], vis, cc => (cc, vis)
  | x :: rest, vis, cc =>
      if x ∈ vis then ccLoop adjf fuel rest vis cc
      else ccLoop adjf fuel rest (ccExplore adjf fuel [x] (vis ++ [x])) (cc + 1)

/-- `graph<T>::connected_components` (lines 327–353). -/
def Graph.connected_components (g : Graph) : Int :=
  (ccLoop g.adj (g.elements.length + 1) g.elements [] 0).1

/-- The keys read by `connected_components`: the vertices popped by the
component explorations (every element, each exactly once). -/
def ccTouched (g : Graph) : List Int :=
  (ccLoop g.adj (g.elements.length + 1) g.elements [] 0).2

/-- `graph<T>::has_edge` (lines 107–117): `adj[start]` is read only when
`start` is a known element. -/
def Graph.has_edge (g : Graph) (u v : Int) : Bool :=
  if u ∈ g.elements then (g.adj u).contains v else false

/-- `graph<T>::size` (lines 274–276). -/
def Graph.size (g : Graph) : Nat := g.elements.length

/-- Neighbour scan of `bipartite` (lines 433–441): conflict on an
equally-coloured neighbour (`none`), otherwise colour-and-enqueue the
uncoloured ones. -/
def bipProcess : List Int → Int → List (Int × Int) → List (Int × Int) →
    Option (List (Int × Int) × List (Int × Int))
  | [], _, q, color => some (q, color)
  | x :: rest, col, q, color =>
      match color.lookup x with
      | some cx => if cx = col then none else bipProcess rest col q color
      | none =>
          bipProcess rest col (q ++ [(x, if col ≠ 0 then 0 else 1)])
            (color ++ [(x, if col ≠ 0 then 0 else 1)])

/-- Outcome of the 2-colouring: a conflict aborts the whole query
immediately; both outcomes carry the list of vertices popped so far
(the keys read). -/
inductive BipOut where
  | conflict (pops : List Int)
  | finished (color : List (Int × Int)) (pops : List Int)
  deriving Repr, DecidableEq

/-- The popped-vertex list carried by either outcome. -/
def BipOut.pops : BipOut → List Int
  | .conflict p => p
  | .finished _ p => p

/-- The per-component BFS of `bipartite` (lines 428–442). -/
def bipBFS (adjf : Int → List Int) :
    Nat → List (Int × Int) → List (Int × Int) → List Int → BipOut
  | _, [], color, pops => .finished color pops
  | 0, _ :: _, color, pops => .finished color pops
  | fuel + 1, (v, col) :: q, color, pops =>
      match bipProcess (adjf v) col q color with
      | none => .conflict (pops ++ [v])
      | some r => bipBFS adjf fuel r.1 r.2 (pops ++ [v])

/-- The element loop of `bipartite` (lines 424–444). -/
def bipOuter (adjf : Int → List Int) (fuel : Nat) :
    List Int → List (Int × Int) → List Int → BipOut
  | [], color, pops => .finished color pops
  | x :: rest, color, pops =>
      if (color.lookup x).isSome then bipOuter adjf fuel rest color pops
      else
        match bipBFS adjf fuel [(x, 0)] (color ++ [(x, 0)]) pops with
        | .conflict pops2 => .conflict pops2
        | .finished color2 pops2 => bipOuter adjf fuel rest color2 pops2

/-- `graph<T>::bipartite` (lines 420–446). -/
def Graph.bipartite (g : Graph) : Bool :=
  match bipOuter g.adj (g.elements.length + 1) g.elements [] [] with
  | .conflict _ => false
  | .finished _ _ => true

/-- The keys read by `bipartite` (the popped vertices, up to the
aborting one). -/
def bipTouched (g : Graph) : List Int :=
  (bipOuter g.adj (g.elements.length + 1) g.elements [] []).pops

/-- State of the recursive `dfs_bridge` helper (lines 241–257): the
`time` counter, the visit order (= the keys read), the `in`/`out` maps
and the collected bridges. -/
structure BrState where
  time : Int
  vis : List Int
  inM : Int → Int
  outM : Int → Int
  brs : List (List Int)

/-- Entry bookkeeping of `dfs_bridge` (lines 244–245):
`visited[v] = true; in[v] = out[v] = time++`. -/
def brEnter (st : BrState) (v : Int) : BrState :=
  { time := st.time + 1, vis := st.vis ++ [v],
    inM := fun w => if w = v then st.time else st.inM w,
    outM := fun w => if w = v then st.time else st.outM w,
    brs := st.brs }

/-- The neighbour loop of `dfs_bridge` (lines 246–256), with the
recursive call flattened into the same fuel recursion: the pending
neighbour list of the current activation is an explicit argument.
A nested call processes `adj[x]` after the entry bookkeeping for `x`;
on return the bridge test `out[x] > in[start]` and the low-link update
`out[start] = min(out[start], out[x])` are applied. -/
def dfsBridgeN (adjf : Int → List Int) :
    Nat → Int → Int → List Int → BrState → BrState
  | 0, _, _, _, st => st
  | _ + 1, _, _, [], st => st
  | fuel + 1, start, parent, x :: rest, st =>
      if x = parent then dfsBridgeN adjf fuel start parent rest st
      else if x ∈ st.vis then
        dfsBridgeN adjf fuel start parent rest
          { st with outM := fun w => if w = start then min (st.outM start) (st.outM x)
              else st.outM w }
      else
        dfsBridgeN adjf fuel start parent rest
          (let st2 := dfsBridgeN adjf fuel x start (adjf x) (brEnter st x)
           { st2 with
              brs := if st2.outM x > st2.inM start then st2.brs ++ [[x, start]] else st2.brs,
              outM := fun w => if w = start then min (st2.outM start) (st2.outM x)
                else st2.outM w })

/-- Fuel bound for `bridge`: at most one activation step per visited
vertex plus one per adjacency entry. -/
def bridgeFuel (g : Graph) : Nat :=
  g.elements.length + 2 * g.edges.length + 2

/-- `graph<T>::bridge` (lines 448–459): `in`/`out` are zeroed for every
element (the map default is `0` anyway), then `dfs_bridge(start, -1)`
runs.  Returns the collected bridges together with the visit order —
the keys read; NOTE the start vertex is visited (and `adj[start]` read)
without any membership check. -/
def Graph.bridge (g : Graph) (s : Int) : List (List Int) × List Int :=
  let st0 := brEnter ⟨0, [], fun _ => 0, fun _ => 0, []⟩ s
  let stf := dfsBridgeN g.adj (bridgeFuel g) s (-1) (g.adj s) st0
  (stf.brs, stf.vis)

/-- The recursive `dfs_scc` helper (lines 262–271), flattened like
`dfsBridgeN`: marks on entry, recurses on unvisited neighbours, and
pushes the vertex on the finish stack when its neighbour list is
exhausted.  Returns (visited, stack). -/
def dfsSccN (adjf : Int → List Int) :
    Nat → Int → List Int → List Int → List Int → List Int × List Int
  | 0, _, _, vis, s => (vis, s)
  | _ + 1, start, [], vis, s => (vis, start :: s)
  | fuel + 1, start, x :: rest, vis, s =>
      if x ∈ vis then dfsSccN adjf fuel start rest vis s
      else
        let r := dfsSccN adjf fuel x (adjf x) (vis ++ [x]) s
        dfsSccN adjf fuel start rest r.1 r.2

/-- First Kosaraju pass (lines 505–509). -/
def sccPass1 (adjf : Int → List Int) (fuel : Nat) :
    List Int → List Int → List Int → List Int × List Int
  | [], vis, s => (vis, s)
  | x :: rest, vis, s =>
      if x ∈ vis then sccPass1 adjf fuel rest vis s
      else
        let r := dfsSccN adjf fuel x (adjf x) (vis ++ [x]) s
        sccPass1 adjf fuel rest r.1 r.2

/-- The transpose adjacency `new_adj` built at lines 511–516: for each
element `x` in order, one copy of `x` per occurrence of `v` in
`adj[x]`.  This is a *local* map — reading it creates no keys in the
member `adj`. -/
def Graph.newAdj (g : Graph) (v : Int) : List Int :=
  g.elements.foldl (fun l x => l ++ List.replicate ((g.adj x).count v) x) []

/-- Second Kosaraju pass (lines 537–544): pop the finish stack, explore
the transpose from each unvisited vertex, count components. -/
def sccPass2 (adjf2 : Int → List Int) (fuel : Nat) :
    List Int → List Int → Int → Int
  | [], _, cc => cc
  | cur :: rest, vis, cc =>
      if cur ∈ vis then sccPass2 adjf2 fuel rest vis cc
      else sccPass2 adjf2 fuel rest (exploreStack adjf2 fuel [cur] (vis ++ [cur])) (cc + 1)

/-- Fuel bound covering the flattened DFS of the first pass. -/
def sccFuel (g : Graph) : Nat := g.elements.length + 2 * g.edges.length + 2

/-- `graph<T>::scc` (lines 497–547). -/
def Graph.scc (g : Graph) : Int :=
  if g.elements.length = 0 then 0
  else sccPass2 g.newAdj (sccFuel g)
    (sccPass1 g.adj (sccFuel g) g.elements [] []).2 [] 0

/-- The member-map keys read by `scc`: the first-pass visit order plus
every element (the transpose build reads `adj[x]` for all of them). -/
def sccTouched (g : Graph) : List Int :=
  if g.elements.length = 0 then []
  else (sccPass1 g.adj (sccFuel g) g.elements [] []).1 ++ g.elements

/-- The start-vertex search of `connected` (lines 463–474): the first
map key with a nonempty adjacency vector (map iteration order =
first-creation order in this model). -/
def Graph.connectedStart (g : Graph) : Option Int :=
  g.adjKeys.find? (fun k => !(g.adj k).isEmpty)

/-- The final scan of `connected` (lines 489–494): `adj[x]` is read
(and hence its key created) only for *unvisited* elements, and the scan
aborts at the first unvisited vertex with edges.  Returns the result
and the keys read. -/
def connCheck (adjf : Int → List Int) (vis : List Int) : List Int → Bool × List Int
  | [] => (true, [])
  | x :: rest =>
      if x ∈ vis then connCheck adjf vis rest
      else if 0 < (adjf x).length then (false, [x])
      else
        let r := connCheck adjf vis rest
        (r.1, x :: r.2)

/-- `graph<T>::connected` (lines 461–495). -/
def Graph.connected (g : Graph) : Bool :=
  match g.connectedStart with
  | none => false
  | some st =>
      (connCheck g.adj (exploreStack g.adj (g.elements.length + 1) [st] [st])
        g.elements).1

/-- The keys read by `connected`: the traversal's visit order plus the
unvisited elements scanned at the end. -/
def connTouched (g : Graph) : List Int :=
  match g.connectedStart with
  | none => []
  | some st =>
      exploreStack g.adj (g.elements.length + 1) [st] [st]
        ++ (connCheck g.adj (exploreStack g.adj (g.elements.length + 1) [st] [st])
              g.elements).2

/-- `graph<T>::eulerian` (lines 549–565): `0` when not connected or
more than two odd-degree vertices, `1` when exactly one or two, `2`
when none.  The degree scan iterates existing map keys only. -/
def Graph.eulerian (g : Graph) : Int :=
  if g.connected = false then 0
  else
    if 2 < (g.adjKeys.filter (fun k => (g.adj k).length % 2 = 1)).length then 0
    else if (g.adjKeys.filter (fun k => (g.adj k).length % 2 = 1)).length ≠ 0 then 1
    else 2

/-- The public operations of `graph<T>` (claim C8's "sequence of public
operations"). -/
inductive GOp where
  | add_edge (u v : Int)
  | has_edge (u v : Int)
  | clear
  | empty
  | size
  | dfs (s : Int)
  | bfs (s : Int)
  | connected_components
  | cycle
  | topological_sort
  | bipartite
  | bridge (s : Int)
  | scc
  | connected
  | eulerian
  deriving Repr, DecidableEq

/-- State effect of one public operation.  Mutators change the edge
trace; every query extends the adjacency-map key set by exactly the
keys its `operator[]` reads create.  `cycle` and `topological_sort`
read `adj[x]` for every element while building the in-degree map, then
for every popped vertex. -/
def GOp.step (g : Graph) : GOp → Graph
  | .add_edge u v => g.add_edge u v
  | .has_edge u _ =>
      { g with adjKeys := insKeys g.adjKeys (if u ∈ g.elements then [u] else []) }
  | .clear => { g with edges := [], adjKeys := [] }
  | .empty => g
  | .size => g
  | .dfs s => { g with adjKeys := insKeys g.adjKeys ((g.dfs s).getD []) }
  | .bfs s => { g with adjKeys := insKeys g.adjKeys ((g.bfs s).getD []) }
  | .connected_components => { g with adjKeys := insKeys g.adjKeys (ccTouched g) }
  | .cycle =>
      { g with adjKeys := insKeys g.adjKeys (g.elements ++ (cyclePops g.elements g.adj).getD []) }
  | .topological_sort =>
      { g with adjKeys := insKeys g.adjKeys (g.elements ++ g.topological_sort) }
  | .bipartite => { g with adjKeys := insKeys g.adjKeys (bipTouched g) }
  | .bridge s => { g with adjKeys := insKeys g.adjKeys (g.bridge s).2 }
  | .scc => { g with adjKeys := insKeys g.adjKeys (sccTouched g) }
  | .connected => { g with adjKeys := insKeys g.adjKeys (connTouched g) }
  | .eulerian => { g with adjKeys := insKeys g.adjKeys (connTouched g) }

/-- Run a sequence of public operations. -/
def runOps (g : Graph) : List GOp → Graph
  | [] => g
  | op :: rest => runOps (GOp.step g op) rest

/-- The side condition of the amended claim: `bridge` is only invoked
on a known vertex (every other operation is unrestricted). -/
def opOK (g : Graph) : GOp → Prop
  | .bridge s => s ∈ g.elements
  | _ => True

instance (g : Graph) (op : GOp) : Decidable (opOK g op) := by
  cases op <;> simp only [opOK] <;> infer_instance

/-- Validity of a sequence: each `bridge` start is a vertex of the
state it runs against. -/
def ValidOps : Graph → List GOp → Prop
  | _, [] => True
  | g, op :: rest => opOK g op ∧ ValidOps (GOp.step g op) rest

instance instDecValidOps : ∀ (g : Graph) (ops : List GOp), Decidable (ValidOps g ops)
  | _, [] => isTrue trivial
  | g, op :: rest =>
      have : Decidable (ValidOps (GOp.step g op) rest) := instDecValidOps _ rest
      inferInstanceAs (Decidable (_ ∧ _))

/-- Witness graph for the amended C5: a directed graph in which `3` is
present but unreachable from `1`, with nonnegative weights. -/
def gC5w : WGraph := mkWGraph "directed" [(1, 2, 1), (3, 4, 1)]

/-- Reachability along stored adjacency in a weighted graph. -/
def WGraph.Reach (g : WGraph) (s t : Int) : Prop :=
  Relation.ReflTransGen (fun a b => b ∈ g.nbr a) s t

/-- The family of `dist` maps the Dijkstra branch cycles through on
`gC5`: the self-loop vertex `0` at `d`, everything else untouched. -/
def gC5dist (d : Int) : Int → Int :=
  fun v => if v = 0 then d else if v ∈ gC5.elements then INF else 0

/-- A set closed under adjacency absorbs every reachable vertex. -/
theorem reach_closed (g : WGraph) (S : List Int) (s t : Int)
    (hs : s ∈ S) (hcl : ∀ a ∈ S, ∀ b ∈ g.nbr a, b ∈ S)
    (h : g.Reach s t) : t ∈ S := by
  induction h with
  | refl => exact hs
  | tail _ hstep ih => exact hcl _ ih _ hstep

/-! ## Claim theorems (C1, C3, C4, C6, C7, C9 and the concrete
counterexamples of C2 and C10) -/

/-- C1 (code bug): `cycle()` is claimed to return true iff the Kahn
process removes fewer than all vertices — which is also what the
function's own doc comment ("returns true if a cycle exist in the graph")
requires on this input.  On the directed graph `1→2, 3→4, 4→3` the 2-cycle
`3→4→3` exists, the process removes only 2 of the 4 vertices, and yet
`cycle()` returns `false`, because line 382 of the source returns
`visited == 0` instead of `visited != _elements.size()`. -/
theorem C1_cycle_code_bug_eval :
    gC1.cycle = false ∧
    gC1.cycleVisited = 2 ∧
    gC1.elements.length = 4 ∧
    4 ∈ gC1.adj 3 ∧ 3 ∈ gC1.adj 4 := by decide

/-- C2 counterexample: the claim guards `topological_sort()` only by
`cycle() = false`, but `cycle()` (line 382) also returns `false` on the
cyclic graph `1→2, 3→4, 4→3`; there the output `[1, 2]` omits `3` and
`4`, so the inserted edge `(3, 4)` has no occurrence of `3` before `4`. -/
theorem C2_counterexample :
    gC1.cycle = false ∧
    4 ∈ gC1.adj 3 ∧
    gC1.topological_sort = [1, 2] ∧
    ¬ precedesIn gC1.topological_sort 3 4 := by decide

/-- C3 (code bug): `prim()` is claimed (and its doc comment says) to
return the MST total weight, `3` for the triangle `A-B:1, B-C:2, A-C:3`.
The initial heap entry `make_pair(0, _temp)` (line 1103) puts `0` into
the slot the loop body reads as the *vertex* (line 1107) and the start
vertex into the slot read as the *weight* (line 1111).  With
`A,B,C = 1,2,3` and start `A`, the run visits the phantom vertex `0`,
adds the start vertex's numeric value `1` to the cost and stops: result `1`.
Even with `A,B,C = 0,1,2` (where the phantom vertex coincides with `A`),
starting from `B = 1` yields `4`, not `3`. -/
theorem C3_prim_code_bug_eval :
    gC3.prim 1 = some 1 ∧ gC3b.prim 1 = some 4 := by decide

/-- C4: on the weighted DAG `1→2:1, 1→3:4, 2→4:2, 3→4:1` the call
`shortest_path(1,4)` takes the directed-acyclic branch (the dispatch
condition `!cycle() && _type == "directed"` holds) and returns `3`,
the weight of `1→2→4`. -/
theorem C4_shortest_path_dag_scenario :
    gC4.cycle = false ∧ gC4.gtype = "directed" ∧
    gC4.shortest_path 1 4 = some 3 := by decide

/-- C6: on the undirected graph with the single weight `−5` edge
`A — B` (stored as the 2-cycle `A→B, B→A`), `bellman_ford(A)` maps `B`
to `-infinity`.  (The map iteration order the model fixes does not
matter here: both orders mark both vertices `-infinity`.) -/
theorem C6_bellman_ford_negative_cycle :
    (gC6.bellman_ford 0).lookup 1 = some .negInf := by decide

/-- C7 counterexample: constructing with the unrecognised mode string
`"mixed"` does *not* raise anything to the caller.  The
`std::invalid_argument` thrown at line 44/636 is caught by the `catch`
block of the same constructor (lines 53–56 / 643–646), which prints to
`cerr` and returns normally, leaving a usable object with the default
`_type = ""` — for both the unweighted and the weighted class. -/
theorem C7_counterexample :
    (Graph.construct "mixed" []).raised = false ∧
    Graph.construct "mixed" [] = .caught ⟨"", [], []⟩ ∧
    (WGraph.construct "mixed" []).raised = false ∧
    WGraph.construct "mixed" [] = .caught ⟨"", []⟩ := by decide

/-- C7 amended: for every mode string that is neither `"directed"` nor
`"undirected"`, both constructors throw internally and catch the
exception themselves (printing the message to `cerr`); the caller
receives a normally-constructed object whose `_type` is left at its
default empty value and whose edge replay never ran. -/
theorem C7_amended_invalid_mode_caught (t : String)
    (initU : List (Int × List Int)) (initW : List (Int × Int × Int))
    (h1 : t ≠ "directed") (h2 : t ≠ "undirected") :
    Graph.construct t initU = .caught ⟨"", [], []⟩ ∧
    WGraph.construct t initW = .caught ⟨"", []⟩ := by
  refine ⟨?_, ?_⟩
  · simp [Graph.construct, h1, h2]
  · simp [WGraph.construct, h1, h2]

theorem C7_witness :
    Graph.construct "mixed" [(1, [2])] = .caught ⟨"", [], []⟩ ∧
    WGraph.construct "mixed" [(1, 2, 5)] = .caught ⟨"", []⟩ :=
  C7_amended_invalid_mode_caught "mixed" [(1, [2])] [(1, 2, 5)]
    (by decide) (by decide)

/-- C9: for both graph classes, `dfs(start)` and `bfs(start)` return the
empty sequence — not an error — whenever the graph is empty or `start`
is not a vertex (the guard at lines 280–282, 303–305, 954–956,
980–982). -/
theorem C9_dfs_bfs_empty_on_unknown_start
    (g : Graph) (wg : WGraph) (s t : Int)
    (hg : g.elements = [] ∨ s ∉ g.elements)
    (hw : wg.elements = [] ∨ t ∉ wg.elements) :
    g.dfs s = some [] ∧ g.bfs s = some [] ∧
    wg.dfs t = some [] ∧ wg.bfs t = some [] := by
  refine ⟨?_, ?_, ?_, ?_⟩
  · simp only [Graph.dfs]; rw [if_pos hg]
  · simp only [Graph.bfs]; rw [if_pos hg]
  · simp only [WGraph.dfs]; rw [if_pos hw]
  · simp only [WGraph.bfs]; rw [if_pos hw]

theorem C9_witness :
    (mkGraph "directed" [(1, 2)]).dfs 5 = some [] ∧
    (mkGraph "directed" [(1, 2)]).bfs 5 = some [] ∧
    gC6.dfs 9 = some [] ∧ gC6.bfs 9 = some [] :=
  C9_dfs_bfs_empty_on_unknown_start (mkGraph "directed" [(1, 2)]) gC6 5 9
    (by decide) (by decide)

/-- C10 counterexample: in the directed graph `A→B:1, B→C:−5`
(`A,B,C = 0,1,2`), vertex `C` appears only as an edge destination (it is
not a key of `adj`), yet `bellman_ford(A)` reports it with distance
`−4` — neither missing from the mapping nor the claimed default `0`:
the relaxation `dist[B] + (−5) < dist[C]` succeeds against the
default-inserted `0` and writes a negative value. -/
theorem C10_counterexample :
    2 ∉ gC10b.adjKeys ∧
    (gC10b.bellman_ford 0).lookup 2 = some (.fin (-4)) ∧
    ¬ ((gC10b.bellman_ford 0).lookup 2 = none ∨
       (gC10b.bellman_ford 0).lookup 2 = some (.fin 0)) := by decide

theorem gC5_adj0 : gC5.adj 0 = [(0, -1), (0, -1)] := by decide

/-- One iteration of the Dijkstra loop on `gC5` starting from the state
`pq = [(d, 0)]`, `dist = gC5dist d`: the self-loop relaxes `0` to `d-1`
and re-enqueues it, reproducing the same state shape. -/
theorem gC5_dij_step (n : Nat) (d : Int) :
    dijLoop gC5.adj (n + 1) [(d, 0)] (gC5dist d)
      = dijLoop gC5.adj n [(d - 1, 0)] (gC5dist (d - 1)) := by
  have hpop : pqPopNE (d, 0) [] = ((d, 0), []) := by
    simp [pqPopNE]
  have hd0 : gC5dist d 0 = d := by simp [gC5dist]
  have hproc : dijProcess d (gC5.adj 0) [] (gC5dist d)
      = ([(d - 1, 0)], gC5dist (d - 1)) := by
    rw [gC5_adj0]
    have hd1 : d + -1 = d - 1 := by ring
    have hc1 : d + (-1) < gC5dist d 0 := by rw [hd0]; omega
    simp only [dijProcess, if_pos hc1, List.nil_append, if_true]
    rw [if_neg (lt_irrefl (d + -1))]
    refine congrArg₂ Prod.mk (by rw [hd1]) ?_
    funext v
    by_cases hv : v = 0
    · simp [gC5dist, hv, hd1]
    · simp [gC5dist, hv]
  show dijLoop gC5.adj n
      (dijProcess (pqPopNE (d, 0) []).1.1 (gC5.adj (pqPopNE (d, 0) []).1.2)
        (pqPopNE (d, 0) []).2 (gC5dist d)).1
      (dijProcess (pqPopNE (d, 0) []).1.1 (gC5.adj (pqPopNE (d, 0) []).1.2)
        (pqPopNE (d, 0) []).2 (gC5dist d)).2 = _
  rw [hpop]
  show dijLoop gC5.adj n (dijProcess d (gC5.adj 0) [] (gC5dist d)).1
      (dijProcess d (gC5.adj 0) [] (gC5dist d)).2 = _
  rw [hproc]

/-- The Dijkstra loop on `gC5` never terminates, for any fuel. -/
theorem gC5_dij_diverges (fuel : Nat) :
    ∀ d : Int, dijLoop gC5.adj fuel [(d, 0)] (gC5dist d) = none := by
  induction fuel with
  | zero => intro d; rfl
  | succ n ih => intro d; rw [gC5_dij_step n d]; exact ih (d - 1)

/-- C5 counterexample: on the undirected graph with the weight `−1`
self-loop at `0` and the separate edge `7 — 8`, both endpoints of
`shortest_path(0, 7)` are present and `7` is unreachable from `0`, yet
the call does not return `−1`: the Dijkstra branch relaxes the negative
self-loop forever (`none` = the C++ `while (!pq.empty())` loop never
terminates — proved for every fuel by `gC5_dij_diverges`). -/
theorem C5_counterexample :
    0 ∈ gC5.elements ∧ 7 ∈ gC5.elements ∧ ¬ gC5.Reach 0 7 ∧
    gC5.shortest_path 0 7 = none := by
  refine ⟨by decide, by decide, ?_, ?_⟩
  · intro h
    exact absurd (reach_closed gC5 [0] 0 7 (by decide) (by decide) h) (by decide)
  · show (if (0:Int) ∉ gC5.elements then some (-1) else _) = none
    rw [if_neg (by decide)]
    show (if (7:Int) ∉ gC5.elements then some (-1) else _) = none
    rw [if_neg (by decide)]
    show (if gC5.cycle = false ∧ gC5.gtype = "directed" then _ else _) = none
    rw [if_neg (by decide)]
    have h0 : spDist0 gC5.elements 0 = gC5dist 0 := by
      funext v; simp [spDist0, gC5dist]
    rw [h0, gC5_dij_diverges (wFuel gC5) 0]

/-! ## Foundational lemmas about the derived data -/

theorem natSum_zero {l : List Nat} (h : l.sum = 0) : ∀ x ∈ l, x = 0 := by
  induction l with
  | nil => intro x hx; cases hx
  | cons a t ih =>
      intro x hx
      simp only [List.sum_cons] at h
      rcases List.mem_cons.mp hx with rfl | hx
      · omega
      · exact ih (by omega) x hx

theorem foldl_append_mem {α β : Type} (f : α → List β) (es : List α) :
    ∀ (init : List β) (b : β),
      (b ∈ es.foldl (fun l e => l ++ f e) init ↔ b ∈ init ∨ ∃ e ∈ es, b ∈ f e) := by
  induction es with
  | nil => intro init b; simp
  | cons a t ih =>
      intro init b
      rw [List.foldl_cons, ih]
      simp only [List.mem_append, List.mem_cons]
      constructor
      · rintro ((h | h) | ⟨e, he, hb⟩)
        · exact Or.inl h
        · exact Or.inr ⟨a, Or.inl rfl, h⟩
        · exact Or.inr ⟨e, Or.inr he, hb⟩
      · rintro (h | ⟨e, (rfl | he), hb⟩)
        · exact Or.inl (Or.inl h)
        · exact Or.inl (Or.inr hb)
        · exact Or.inr ⟨e, he, hb⟩

theorem insElem_mem {l : List Int} {x y : Int} : y ∈ insElem l x ↔ y ∈ l ∨ y = x := by
  unfold insElem
  split
  · constructor
    · exact Or.inl
    · rintro (h | rfl) <;> [exact h; assumption]
  · simp

theorem insElem_nodup {l : List Int} {x : Int} (h : l.Nodup) : (insElem l x).Nodup := by
  by_cases hx : x ∈ l
  · rw [insElem, if_pos hx]; exact h
  · rw [insElem, if_neg hx]
    exact h.append (List.nodup_singleton x)
      (fun a ha hax => hx ((List.mem_singleton.mp hax) ▸ ha))

theorem elemsOfEdges_mem_aux (es : List (Int × Int)) :
    ∀ (init : List Int) (y : Int),
      (y ∈ es.foldl (fun l e => insElem (insElem l e.1) e.2) init ↔
        y ∈ init ∨ ∃ e ∈ es, y = e.1 ∨ y = e.2) := by
  induction es with
  | nil => intro init y; simp
  | cons a t ih =>
      intro init y
      rw [List.foldl_cons, ih]
      simp only [insElem_mem, List.mem_cons]
      constructor
      · rintro (((h | rfl) | rfl) | ⟨e, he, hb⟩)
        · exact Or.inl h
        · exact Or.inr ⟨a, Or.inl rfl, Or.inl rfl⟩
        · exact Or.inr ⟨a, Or.inl rfl, Or.inr rfl⟩
        · exact Or.inr ⟨e, Or.inr he, hb⟩
      · rintro (h | ⟨e, (rfl | he), hb⟩)
        · exact Or.inl (Or.inl (Or.inl h))
        · rcases hb with rfl | rfl
          · exact Or.inl (Or.inl (Or.inr rfl))
          · exact Or.inl (Or.inr rfl)
        · exact Or.inr ⟨e, he, hb⟩

theorem elemsOfEdges_mem {es : List (Int × Int)} {y : Int} :
    y ∈ elemsOfEdges es ↔ ∃ e ∈ es, y = e.1 ∨ y = e.2 := by
  rw [elemsOfEdges, elemsOfEdges_mem_aux]
  simp

theorem elemsOfEdges_nodup (es : List (Int × Int)) : (elemsOfEdges es).Nodup := by
  suffices h : ∀ (init : List Int), init.Nodup →
      (es.foldl (fun l e => insElem (insElem l e.1) e.2) init).Nodup from
    h [] List.nodup_nil
  induction es with
  | nil => intro init h; exact h
  | cons a t ih =>
      intro init h
      exact ih _ (insElem_nodup (insElem_nodup h))

theorem Graph.elements_nodup (g : Graph) : g.elements.Nodup :=
  elemsOfEdges_nodup g.edges

theorem WGraph.welements_nodup (g : WGraph) : g.elements.Nodup :=
  elemsOfEdges_nodup _

theorem nbrOfEdge_mem {t : String} {x v : Int} {e : Int × Int}
    (h : v ∈ nbrOfEdge t x e) :
    (e.1 = x ∧ v = e.2) ∨ (e.2 = x ∧ v = e.1) := by
  unfold nbrOfEdge at h
  split at h
  · rcases List.mem_append.mp h with h | h
    · split at h
      · rw [List.mem_singleton] at h; exact Or.inl ⟨by assumption, h⟩
      · cases h
    · split at h
      · rw [List.mem_singleton] at h; exact Or.inr ⟨by assumption, h⟩
      · cases h
  · split at h
    · rw [List.mem_singleton] at h; exact Or.inl ⟨by assumption, h⟩
    · cases h

theorem wnbrOfEdge_mem {t : String} {x : Int} {p : Int × Int} {e : Int × Int × Int}
    (h : p ∈ wnbrOfEdge t x e) :
    (e.1 = x ∧ p = (e.2.1, e.2.2)) ∨ (e.2.1 = x ∧ p = (e.1, e.2.2)) := by
  unfold wnbrOfEdge at h
  split at h
  · rcases List.mem_append.mp h with h | h
    · split at h
      · rw [List.mem_singleton] at h; exact Or.inl ⟨by assumption, h⟩
      · cases h
    · split at h
      · rw [List.mem_singleton] at h; exact Or.inr ⟨by assumption, h⟩
      · cases h
  · split at h
    · split at h
      · rw [List.mem_singleton] at h; exact Or.inl ⟨by assumption, h⟩
      · cases h
    · cases h

/-- Adjacency endpoints always lie in `_elements` (both classes insert
both endpoints of every edge). -/
theorem Graph.adj_mem (g : Graph) {u v : Int} (h : v ∈ g.adj u) :
    u ∈ g.elements ∧ v ∈ g.elements := by
  rw [Graph.adj, foldl_append_mem] at h
  rcases h with h | ⟨e, he, hb⟩
  · cases h
  · rcases nbrOfEdge_mem hb with ⟨h1, rfl⟩ | ⟨h1, rfl⟩
    · exact ⟨elemsOfEdges_mem.mpr ⟨e, he, Or.inl h1.symm⟩,
        elemsOfEdges_mem.mpr ⟨e, he, Or.inr rfl⟩⟩
    · exact ⟨elemsOfEdges_mem.mpr ⟨e, he, Or.inr h1.symm⟩,
        elemsOfEdges_mem.mpr ⟨e, he, Or.inl rfl⟩⟩

theorem WGraph.wadj_mem (g : WGraph) {u : Int} {p : Int × Int} (h : p ∈ g.adj u) :
    u ∈ g.elements ∧ p.1 ∈ g.elements := by
  rw [WGraph.adj, foldl_append_mem] at h
  rcases h with h | ⟨e, he, hb⟩
  · cases h
  · have hmem : ∀ y ∈ [e.1, e.2.1], y ∈ g.elements := by
      intro y hy
      rcases List.mem_cons.mp hy with rfl | hy
      · exact elemsOfEdges_mem.mpr ⟨(e.1, e.2.1), List.mem_map_of_mem _ he, Or.inl rfl⟩
      · simp only [List.mem_singleton] at hy
        subst hy
        exact elemsOfEdges_mem.mpr ⟨(e.1, e.2.1), List.mem_map_of_mem _ he, Or.inr rfl⟩
    rcases wnbrOfEdge_mem hb with ⟨h1, rfl⟩ | ⟨h1, rfl⟩
    · exact ⟨h1 ▸ hmem e.1 (by simp), hmem e.2.1 (by simp)⟩
    · exact ⟨h1 ▸ hmem e.2.1 (by simp), hmem e.1 (by simp)⟩

theorem WGraph.nbr_mem (g : WGraph) {u v : Int} (h : v ∈ g.nbr u) :
    u ∈ g.elements ∧ v ∈ g.elements := by
  rw [WGraph.nbr] at h
  rcases List.mem_map.mp h with ⟨p, hp, rfl⟩
  exact g.wadj_mem hp

theorem fromS_cons (adjf : Int → List Int) (a : Int) (t : List Int) (v : Int) :
    fromS adjf (a :: t) v = (adjf a).count v + fromS adjf t v := by
  simp [fromS]

theorem bumpList_apply (ys : List Int) :
    ∀ (f : Int → Int) (v : Int), bumpList f ys v = f v + (ys.count v : Int) := by
  induction ys with
  | nil => intro f v; simp [bumpList]
  | cons a t ih =>
      intro f v
      rw [bumpList, List.foldl_cons, ← bumpList, ih]
      by_cases hv : v = a
      · subst hv; simp [List.count_cons]; omega
      · simp [List.count_cons, hv, Ne.symm hv]

/-- Closed form of the in-degree map: the number of stored edge
occurrences into `v` from element sources. -/
theorem kahnIndeg_eq (elems : List Int) (adjf : Int → List Int) (v : Int) :
    kahnIndeg elems adjf v = (fromS adjf elems v : Int) := by
  suffices h : ∀ (L : List Int) (f : Int → Int),
      L.foldl (fun f x => bumpList f (adjf x)) f v = f v + (fromS adjf L v : Int) by
    simpa [kahnIndeg] using h elems (fun _ => 0)
  intro L
  induction L with
  | nil => intro f; simp [fromS]
  | cons a t ih =>
      intro f
      rw [List.foldl_cons, ih, bumpList_apply, fromS_cons]
      push_cast
      ring

/-! ## Correctness of `topological_sort` (claim C2) -/

/-- Specification of the neighbour-processing pass of
`topological_sort`.  `D v` is the number of in-edges of `v` that will
remain unaccounted after the current vertex is fully processed; the
pass starts with `indeg v = D v + (occurrences of v still to process)`
for every unvisited `v`, enqueues exactly the vertices whose count
reaches zero — i.e. whose every in-edge is accounted — and ends with
`indeg v = D v`. -/
theorem topoProcess_spec (D : Int → Int) (hD : ∀ v, 0 ≤ D v) :
    ∀ (l q vis : List Int) (indeg : Int → Int),
      (∀ v, v ∉ vis → indeg v = D v + (l.count v : Int)) →
      ∃ Δ : List Int,
        (topoProcess l q indeg vis).1 = q ++ Δ ∧
        (topoProcess l q indeg vis).2.2 = vis ++ Δ ∧
        Δ.Nodup ∧
        (∀ v ∈ Δ, v ∉ vis ∧ D v = 0 ∧ v ∈ l) ∧
        (∀ v, v ∉ vis ++ Δ → (topoProcess l q indeg vis).2.1 v = D v) := by
  intro l
  induction l with
  | nil =>
      intro q vis indeg hinv
      refine ⟨[], by simp [topoProcess], by simp [topoProcess], List.nodup_nil, by simp, ?_⟩
      intro v hv
      rw [List.append_nil] at hv
      simpa [topoProcess] using hinv v hv
  | cons x rest ih =>
      intro q vis indeg hinv
      by_cases hxv : x ∈ vis
      · rw [topoProcess, if_pos hxv]
        have hinv2 : ∀ v, v ∉ vis → indeg v = D v + (rest.count v : Int) := by
          intro v hv
          have hvx : v ≠ x := fun h => hv (h ▸ hxv)
          have h0 := hinv v hv
          rw [List.count_cons] at h0
          simpa [Ne.symm hvx] using h0
        obtain ⟨Δ, h1, h2, h3, h4, h5⟩ := ih q vis indeg hinv2
        exact ⟨Δ, h1, h2, h3,
          fun v hv => ⟨(h4 v hv).1, (h4 v hv).2.1, List.mem_cons_of_mem _ (h4 v hv).2.2⟩, h5⟩
      · rw [topoProcess, if_neg hxv]
        by_cases hz : (if x = x then indeg x - 1 else indeg x) = 0
        · rw [if_pos hz]
          rw [if_pos rfl] at hz
          have hx0 := hinv x hxv
          rw [List.count_cons] at hx0
          simp only [beq_self_eq_true, if_true] at hx0
          have hDx : D x = 0 ∧ rest.count x = 0 := by
            have hd := hD x
            push_cast at hx0
            constructor <;> omega
          have hinv2 : ∀ v, v ∉ vis ++ [x] →
              (fun v => if v = x then indeg v - 1 else indeg v) v
                = D v + (rest.count v : Int) := by
            intro v hv
            rw [List.mem_append, List.mem_singleton] at hv
            push_neg at hv
            obtain ⟨hv1, hv2⟩ := hv
            have h0 := hinv v hv1
            rw [List.count_cons] at h0
            show (if v = x then indeg v - 1 else indeg v) = D v + (rest.count v : Int)
            rw [if_neg hv2]
            simpa [Ne.symm hv2] using h0
          obtain ⟨Δ, h1, h2, h3, h4, h5⟩ := ih (q ++ [x]) (vis ++ [x]) _ hinv2
          have hxΔ : x ∉ Δ := fun hx => ((h4 x hx).1) (by simp)
          refine ⟨x :: Δ, ?_, ?_, ?_, ?_, ?_⟩
          · rw [h1, List.append_assoc]; rfl
          · rw [h2, List.append_assoc]; rfl
          · exact List.nodup_cons.mpr ⟨hxΔ, h3⟩
          · intro v hv
            rcases List.mem_cons.mp hv with rfl | hv
            · exact ⟨hxv, hDx.1, List.mem_cons_self _ _⟩
            · refine ⟨fun hvv => (h4 v hv).1 (List.mem_append_left _ hvv),
                (h4 v hv).2.1, List.mem_cons_of_mem _ (h4 v hv).2.2⟩
          · intro v hv
            apply h5
            intro hvv
            apply hv
            rw [List.append_assoc] at hvv
            exact hvv
        · rw [if_neg hz]
          rw [if_pos rfl] at hz
          have hinv2 : ∀ v, v ∉ vis →
              (fun v => if v = x then indeg v - 1 else indeg v) v
                = D v + (rest.count v : Int) := by
            intro v hv
            by_cases hvx : v = x
            · subst hvx
              have h0 := hinv v hv
              rw [List.count_cons] at h0
              simp only [beq_self_eq_true, if_true] at h0
              show (if v = v then indeg v - 1 else indeg v) = D v + (rest.count v : Int)
              rw [if_pos rfl]
              push_cast at h0 ⊢
              omega
            · have h0 := hinv v hv
              rw [List.count_cons] at h0
              show (if v = x then indeg v - 1 else indeg v) = D v + (rest.count v : Int)
              rw [if_neg hvx]
              simpa [Ne.symm hvx] using h0
          obtain ⟨Δ, h1, h2, h3, h4, h5⟩ := ih q vis _ hinv2
          exact ⟨Δ, h1, h2, h3,
            fun v hv => ⟨(h4 v hv).1, (h4 v hv).2.1, List.mem_cons_of_mem _ (h4 v hv).2.2⟩, h5⟩

/-- Master invariant of the `topological_sort` work loop.  With `out`
the emitted prefix and `rem` the elements not yet emitted, the queue
always consists of vertices whose every in-edge source has already been
emitted, so the emitted order respects every stored edge. -/
theorem topoLoop_spec (elems : List Int) (adjf : Int → List Int)
    (hadj : ∀ u v, v ∈ adjf u → u ∈ elems ∧ v ∈ elems) :
    ∀ (fuel : Nat) (q vis out rem : List Int) (indeg : Int → Int) (res : List Int),
      vis = out ++ q →
      vis.Nodup →
      (∀ v ∈ vis, v ∈ elems) →
      rem.Nodup →
      (∀ v, v ∈ rem ↔ v ∈ elems ∧ v ∉ out) →
      (∀ v, v ∉ vis → indeg v = (fromS adjf rem v : Int)) →
      (∀ v ∈ q, ∀ u, v ∈ adjf u → u ∈ out) →
      (∀ v ∈ out, ∀ u, v ∈ adjf u → u ∈ out ∧ out.indexOf u < out.indexOf v) →
      topoLoop adjf fuel q indeg vis out = some res →
      res.Nodup ∧ (∀ v ∈ res, v ∈ elems) ∧
      (∀ v ∈ res, ∀ u, v ∈ adjf u → u ∈ res ∧ res.indexOf u < res.indexOf v) := by
  intro fuel
  induction fuel with
  | zero =>
      intro q vis out rem indeg res hvq hnd hve _ _ _ _ hout hres
      cases q with
      | nil =>
          rw [topoLoop] at hres
          cases hres
          rw [hvq, List.append_nil] at hnd hve
          exact ⟨hnd, hve, hout⟩
      | cons a t => cases hres
  | succ n ih =>
      intro q vis out rem indeg res hvq hnd hve hrnd hrem hindeg hq hout hres
      cases q with
      | nil =>
          rw [topoLoop] at hres
          cases hres
          rw [hvq, List.append_nil] at hnd hve
          exact ⟨hnd, hve, hout⟩
      | cons cur qrest =>
          rw [topoLoop] at hres
          have hcvis : cur ∈ vis := by
            rw [hvq]; exact List.mem_append_right _ (List.mem_cons_self _ _)
          have hcel : cur ∈ elems := hve _ hcvis
          have hcout : cur ∉ out := by
            rw [hvq] at hnd
            exact fun hc =>
              List.disjoint_of_nodup_append hnd hc (List.mem_cons_self _ _)
          have hcrem : cur ∈ rem := (hrem cur).mpr ⟨hcel, hcout⟩
          have hperm : List.Perm rem (cur :: rem.erase cur) := List.perm_cons_erase hcrem
          have hsplit : ∀ v, (fromS adjf rem v : Int)
              = (fromS adjf (rem.erase cur) v : Int) + ((adjf cur).count v : Int) := by
            intro v
            have h0 : fromS adjf rem v
                = (adjf cur).count v + fromS adjf (rem.erase cur) v := by
              unfold fromS
              rw [(hperm.map _).sum_eq, List.map_cons, List.sum_cons]
            rw [h0]; push_cast; ring
          obtain ⟨Δ, h1, h2, h3, h4, h5⟩ :=
            topoProcess_spec (fun v => (fromS adjf (rem.erase cur) v : Int))
              (fun v => Nat.cast_nonneg _)
              (adjf cur) qrest vis indeg
              (fun v hv => by rw [hindeg v hv, hsplit v])
          have hΔel : ∀ v ∈ Δ, v ∈ elems := fun v hv => (hadj cur v (h4 v hv).2.2).2
          have hΔsrc : ∀ v ∈ Δ, ∀ u, v ∈ adjf u → u ∈ out ++ [cur] := by
            intro v hv u hu
            have hD0 : fromS adjf (rem.erase cur) v = 0 := by
              exact_mod_cast (h4 v hv).2.1
            by_contra huo
            have hurem : u ∈ rem.erase cur := by
              rw [hrnd.mem_erase_iff]
              refine ⟨?_, (hrem u).mpr ⟨(hadj u v hu).1, ?_⟩⟩
              · intro h; exact huo (h ▸ List.mem_append_right _ (List.mem_singleton.mpr rfl))
              · intro h; exact huo (List.mem_append_left _ h)
            have hcnt : (adjf u).count v = 0 :=
              natSum_zero hD0 _ (List.mem_map_of_mem _ hurem)
            exact absurd (List.count_pos_iff.mpr hu) (by omega)
          refine ih (topoProcess (adjf cur) qrest indeg vis).1
              (topoProcess (adjf cur) qrest indeg vis).2.2
              (out ++ [cur]) (rem.erase cur)
              (topoProcess (adjf cur) qrest indeg vis).2.1 res ?_ ?_ ?_ ?_ ?_ ?_ ?_ ?_ hres
          · rw [h1, h2, hvq]; simp
          · rw [h2]
            refine hnd.append h3 ?_
            intro a ha hb
            exact (h4 a hb).1 ha
          · rw [h2]
            intro v hv
            rcases List.mem_append.mp hv with hv | hv
            · exact hve v hv
            · exact hΔel v hv
          · exact hrnd.erase cur
          · intro v
            rw [hrnd.mem_erase_iff, hrem v]
            simp only [List.mem_append, List.mem_singleton]
            constructor
            · rintro ⟨hne, hel, hno⟩
              exact ⟨hel, by rintro (h | h) <;> [exact hno h; exact hne h]⟩
            · rintro ⟨hel, hno⟩
              exact ⟨fun h => hno (Or.inr h), hel, fun h => hno (Or.inl h)⟩
          · rw [h2]
            exact h5
          · rw [h1]
            intro v hv u hu
            rcases List.mem_append.mp hv with hv | hv
            · exact List.mem_append_left _ (hq v (List.mem_cons_of_mem _ hv) u hu)
            · exact hΔsrc v hv u hu
          · intro v hv u hu
            rcases List.mem_append.mp hv with hv | hv
            · obtain ⟨huo, hidx⟩ := hout v hv u hu
              refine ⟨List.mem_append_left _ huo, ?_⟩
              rw [List.indexOf_append_of_mem huo, List.indexOf_append_of_mem hv]
              exact hidx
            · rw [List.mem_singleton] at hv
              subst hv
              have huo : u ∈ out := hq v (List.mem_cons_self _ _) u hu
              refine ⟨List.mem_append_left _ huo, ?_⟩
              rw [List.indexOf_append_of_mem huo,
                List.indexOf_append_of_not_mem hcout, List.indexOf_cons_self]
              have := List.indexOf_lt_length.mpr huo
              omega

/-- Unconditional ordering property of the Kahn output: every emitted
vertex is preceded by all of its in-neighbours. -/
theorem topoSortG_spec (elems : List Int) (adjf : Int → List Int)
    (helems : elems.Nodup)
    (hadj : ∀ u v, v ∈ adjf u → u ∈ elems ∧ v ∈ elems) :
    (topoSortG elems adjf).Nodup ∧ (∀ v ∈ topoSortG elems adjf, v ∈ elems) ∧
    (∀ v ∈ topoSortG elems adjf, ∀ u, v ∈ adjf u →
      u ∈ topoSortG elems adjf ∧
      (topoSortG elems adjf).indexOf u < (topoSortG elems adjf).indexOf v) := by
  have hq0 : ∀ v ∈ kahnQ0 elems adjf, ∀ u, v ∈ adjf u → (u : Int) ∈ ([] : List Int) := by
    intro v hv u hu
    have h0 : kahnIndeg elems adjf v = 0 := by
      simpa using List.of_mem_filter hv
    have hf : fromS adjf elems v = 0 := by
      have hk := kahnIndeg_eq elems adjf v
      rw [h0] at hk
      exact_mod_cast hk.symm
    have hcnt : (adjf u).count v = 0 :=
      natSum_zero hf _ (List.mem_map_of_mem _ (hadj u v hu).1)
    exact absurd (List.count_pos_iff.mpr hu) (by omega)
  unfold topoSortG
  cases hcase : topoLoop adjf (elems.length + 1) (kahnQ0 elems adjf)
      (kahnIndeg elems adjf) (kahnQ0 elems adjf) [] with
  | none => simp
  | some res =>
      simp only [Option.getD_some]
      exact topoLoop_spec elems adjf hadj (elems.length + 1) (kahnQ0 elems adjf)
        (kahnQ0 elems adjf) [] elems (kahnIndeg elems adjf) res
        (by simp) (helems.filter _) (fun v hv => List.mem_of_mem_filter hv)
        helems (by simp)
        (fun v _ => kahnIndeg_eq elems adjf v)
        hq0 (by simp) hcase

/-- C2 amended: whenever the output of `topological_sort()` contains
every vertex (this is what `cycle() = false` was intended to guarantee:
the Kahn process removed all vertices), the output orders `u` before `v`
for every stored edge occurrence `v ∈ adj[u]`. -/
theorem C2_amended_topological_sort_respects_edges (g : Graph)
    (hall : ∀ v ∈ g.elements, v ∈ g.topological_sort) :
    ∀ u v : Int, v ∈ g.adj u → precedesIn g.topological_sort u v := by
  intro u v h
  obtain ⟨hnd, hsub, hord⟩ :=
    topoSortG_spec g.elements g.adj g.elements_nodup (fun a b hh => g.adj_mem hh)
  have hvres : v ∈ g.topological_sort := hall v (g.adj_mem h).2
  obtain ⟨hu, hidx⟩ := hord v hvres u h
  exact ⟨hu, hvres, hidx⟩

theorem C2_witness :
    precedesIn (Graph.topological_sort (mkGraph "directed" [(1, 2), (1, 3), (2, 4), (3, 4)])) 2 4 :=
  C2_amended_topological_sort_respects_edges
    (mkGraph "directed" [(1, 2), (1, 3), (2, 4), (3, 4)])
    (by decide) 2 4 (by decide)

/-! ## The non-positivity invariant of `bellman_ford` (claim C10) -/

theorem lookup_map_update (k : Int) (d : EDouble) :
    ∀ (m : DMap) (k' : Int) (e : EDouble),
      (m.map (fun p => if p.1 = k then (k, d) else p)).lookup k' = some e →
      (k' = k ∧ e = d) ∨ m.lookup k' = some e := by
  intro m
  induction m with
  | nil => intro k' e h; cases h
  | cons a t ih =>
      intro k' e h
      obtain ⟨ak, av⟩ := a
      rw [List.map_cons] at h
      by_cases hak : ak = k
      · rw [if_pos (by simpa using hak)] at h
        by_cases hk : k' = k
        · subst hk
          simp [List.lookup_cons] at h
          exact Or.inl ⟨rfl, h.symm⟩
        · rw [List.lookup_cons, beq_false_of_ne hk] at h
          rcases ih k' e h with h1 | h1
          · exact Or.inl h1
          · subst hak
            rw [List.lookup_cons, beq_false_of_ne hk]
            exact Or.inr h1
      · rw [if_neg (by simpa using hak)] at h
        by_cases hk : k' = ak
        · subst hk
          simp [List.lookup_cons] at h
          exact Or.inr (by simp [List.lookup_cons, h])
        · rw [List.lookup_cons, beq_false_of_ne hk] at h
          rcases ih k' e h with h1 | h1
          · exact Or.inl h1
          · exact Or.inr (by rw [List.lookup_cons, beq_false_of_ne hk]; exact h1)

theorem lookup_append_single (k : Int) (d : EDouble) :
    ∀ (m : DMap) (k' : Int) (e : EDouble),
      (m ++ [(k, d)]).lookup k' = some e → (k' = k ∧ e = d) ∨ m.lookup k' = some e := by
  intro m
  induction m with
  | nil =>
      intro k' e h
      rw [List.nil_append] at h
      by_cases hk : k' = k
      · subst hk
        simp [List.lookup_cons] at h
        exact Or.inl ⟨rfl, h.symm⟩
      · rw [List.lookup_cons, beq_false_of_ne hk] at h
        cases h
  | cons a t ih =>
      intro k' e h
      obtain ⟨ak, av⟩ := a
      rw [List.cons_append] at h
      by_cases hk : k' = ak
      · subst hk
        simp [List.lookup_cons] at h
        exact Or.inr (by simp [List.lookup_cons, h])
      · rw [List.lookup_cons, beq_false_of_ne hk] at h
        rcases ih k' e h with h1 | h1
        · exact Or.inl h1
        · exact Or.inr (by rw [List.lookup_cons, beq_false_of_ne hk]; exact h1)

theorem dSet_lookup_cases (m : DMap) (k : Int) (d : EDouble) (k' : Int) (e : EDouble)
    (h : (dSet m k d).lookup k' = some e) :
    (k' = k ∧ e = d) ∨ m.lookup k' = some e := by
  unfold dSet at h
  split at h
  · exact lookup_map_update k d m k' e h
  · exact lookup_append_single k d m k' e h

theorem dGetIns_lookup_cases (m : DMap) (k k' : Int) (e : EDouble)
    (h : ((dGetIns m k).2).lookup k' = some e) :
    (k' = k ∧ e = .fin 0) ∨ m.lookup k' = some e := by
  unfold dGetIns at h
  split at h
  · exact Or.inr h
  · exact lookup_append_single k (.fin 0) m k' e h

theorem dGetIns_fst_nonpos (m : DMap) (k : Int)
    (hP : ∀ e, m.lookup k = some e → e.nonpos) :
    ((dGetIns m k).1).nonpos := by
  cases hm : m.lookup k with
  | some d => simpa [dGetIns, hm] using hP d hm
  | none => simp [dGetIns, hm, EDouble.nonpos]

theorem blt_nonpos {a b : EDouble} (h : a.blt b = true) (hb : b.nonpos) : a.nonpos := by
  cases a <;> cases b <;> simp_all [EDouble.blt, EDouble.nonpos] <;> omega

theorem dSet_lookup_none {m : DMap} {k' k : Int} {d : EDouble}
    (h : m.lookup k' = none) (hkk : k' ≠ k) : (dSet m k d).lookup k' = none := by
  cases hl : (dSet m k d).lookup k' with
  | none => rfl
  | some e =>
      rcases dSet_lookup_cases m k d k' e hl with ⟨rfl, _⟩ | hh
      · exact absurd rfl hkk
      · rw [h] at hh; cases hh

/-- One edge relaxation preserves "every entry outside the key set and
distinct from `start` is non-positive": a default-inserted entry is `0`,
the second phase writes `-infinity`, and a first-phase write is strictly
below the non-positive previous value. -/
theorem bfRelaxEdge_pres (keys : List Int) (start : Int) (m : DMap) (j : Int)
    (e : Int × Int) (snd : Bool)
    (hP : ∀ k, k ∉ keys → k ≠ start → ∀ d, m.lookup k = some d → d.nonpos) :
    ∀ k, k ∉ keys → k ≠ start → ∀ d,
      (bfRelaxEdge m j e snd).lookup k = some d → d.nonpos := by
  have hP1 : ∀ k, k ∉ keys → k ≠ start → ∀ d,
      ((dGetIns m j).2).lookup k = some d → d.nonpos := by
    intro k hk hks d hdd
    rcases dGetIns_lookup_cases m j k d hdd with ⟨rfl, rfl⟩ | hdd
    · simp [EDouble.nonpos]
    · exact hP k hk hks d hdd
  have hP2 : ∀ k, k ∉ keys → k ≠ start → ∀ d,
      ((dGetIns (dGetIns m j).2 e.1).2).lookup k = some d → d.nonpos := by
    intro k hk hks d hdd
    rcases dGetIns_lookup_cases _ e.1 k d hdd with ⟨rfl, rfl⟩ | hdd
    · simp [EDouble.nonpos]
    · exact hP1 k hk hks d hdd
  intro k hk hks d hd
  unfold bfRelaxEdge at hd
  split at hd
  · rcases dSet_lookup_cases _ _ _ _ _ hd with ⟨rfl, rfl⟩ | hdd
    · cases snd with
      | true => simp [EDouble.nonpos]
      | false =>
          show ((dGetIns m j).1.addw e.2).nonpos
          have hr21 : ((dGetIns (dGetIns m j).2 e.1).1).nonpos := by
            apply dGetIns_fst_nonpos
            intro ee hee
            exact hP1 e.1 hk hks ee hee
          exact blt_nonpos (by assumption) hr21
    · exact hP2 k hk hks d hdd
  · exact hP2 k hk hks d hd

theorem bfInner_pres (adjw : Int → List (Int × Int)) (keys : List Int)
    (snd : Bool) (start : Int) (m : DMap)
    (hP : ∀ k, k ∉ keys → k ≠ start → ∀ d, m.lookup k = some d → d.nonpos) :
    ∀ k, k ∉ keys → k ≠ start → ∀ d,
      (bfInner adjw keys snd m).lookup k = some d → d.nonpos := by
  have hedge : ∀ (es : List (Int × Int)) (j : Int) (m : DMap),
      (∀ k, k ∉ keys → k ≠ start → ∀ d, m.lookup k = some d → d.nonpos) →
      ∀ k, k ∉ keys → k ≠ start → ∀ d,
        (es.foldl (fun m e => bfRelaxEdge m j e snd) m).lookup k = some d → d.nonpos := by
    intro es
    induction es with
    | nil => intro j m h; exact h
    | cons a t ih =>
        intro j m h
        rw [List.foldl_cons]
        exact ih j _ (bfRelaxEdge_pres keys start m j a snd h)
  suffices hgen : ∀ (L : List Int) (m : DMap),
      (∀ k, k ∉ keys → k ≠ start → ∀ d, m.lookup k = some d → d.nonpos) →
      ∀ k, k ∉ keys → k ≠ start → ∀ d,
        (L.foldl (fun m j => (adjw j).foldl (fun m e => bfRelaxEdge m j e snd) m) m).lookup k
            = some d → d.nonpos by
    exact hgen keys m hP
  intro L
  induction L with
  | nil => intro m h; exact h
  | cons a t ih =>
      intro m h
      rw [List.foldl_cons]
      exact ih _ (hedge (adjw a) a m h)

theorem iterN_pres (P : DMap → Prop) (f : DMap → DMap) (hf : ∀ m, P m → P (f m)) :
    ∀ (n : Nat) (m : DMap), P m → P (iterN f n m) := by
  intro n
  induction n with
  | zero => intro m h; exact h
  | succ k ih => intro m h; exact ih (f m) (hf m h)

/-- C10 amended, part joined with the claim's example: a vertex with no
outgoing edge that is not the start is *either missing from the returned
mapping or reported with a non-positive distance* — the `operator[]`
default `0`, possibly lowered by negative-sum relaxations or marked
`-infinity` — and in particular the claimed example holds: for
`A→B:5, B→C:5`, `bellman_ford(A)` reports `C` as `0`, not `10`. -/
theorem C10_amended_dest_only_vertex :
    (∀ (g : WGraph) (start c : Int), g.gtype = "directed" →
        c ∉ g.adjKeys → c ≠ start →
        ∀ d, (g.bellman_ford start).lookup c = some d → d.nonpos) ∧
    (gC10.bellman_ford 0).lookup 2 = some (.fin 0) := by
  constructor
  · intro g start c _ hc hcs d hd
    have hinit : ∀ k, k ∉ g.adjKeys → k ≠ start → ∀ e,
        (dSet (g.adjKeys.foldl (fun m k => dSet m k .posInf) []) start (.fin 0)).lookup k
          = some e → e.nonpos := by
      intro k hk hks e he
      have hnone : ∀ (L : List Int) (m : DMap), k ∉ L → m.lookup k = none →
          (L.foldl (fun m kk => dSet m kk EDouble.posInf) m).lookup k = none := by
        intro L
        induction L with
        | nil => intro m _ h; exact h
        | cons a t ih =>
            intro m hkL h
            rw [List.foldl_cons]
            exact ih _ (fun hh => hkL (List.mem_cons_of_mem _ hh))
              (dSet_lookup_none h (fun hh => hkL (hh ▸ List.mem_cons_self _ _)))
      have h0 : ((g.adjKeys.foldl (fun m kk => dSet m kk EDouble.posInf) [])).lookup k
          = none := hnone g.adjKeys [] hk rfl
      rw [dSet_lookup_none h0 hks] at he
      cases he
    have h1 := iterN_pres
      (fun m => ∀ k, k ∉ g.adjKeys → k ≠ start → ∀ e, m.lookup k = some e → e.nonpos)
      (bfInner g.adj g.adjKeys false)
      (fun m hm => bfInner_pres g.adj g.adjKeys false start m hm)
      (g.adjKeys.length - 1) _ hinit
    have h2 := iterN_pres
      (fun m => ∀ k, k ∉ g.adjKeys → k ≠ start → ∀ e, m.lookup k = some e → e.nonpos)
      (bfInner g.adj g.adjKeys true)
      (fun m hm => bfInner_pres g.adj g.adjKeys true start m hm)
      (g.adjKeys.length - 1) _ h1
    exact h2 c hc hcs d hd
  · decide

theorem C10_witness : (EDouble.fin 0).nonpos :=
  C10_amended_dest_only_vertex.1 gC10 0 2 rfl (by decide) (by decide)
    (.fin 0) C10_amended_dest_only_vertex.2

/-! ## Termination and reachability of `shortest_path` (claim C5) -/

theorem phi_update (elems : List Int) (helems : elems.Nodup) (x : Int) (hx : x ∈ elems)
    (dist : Int → Int) (w : Int) :
    phi elems (fun v => if v = x then w else dist v) + (dist x).toNat
      = phi elems dist + w.toNat := by
  induction elems with
  | nil => cases hx
  | cons a t ih =>
      have hand := List.nodup_cons.mp helems
      rcases List.mem_cons.mp hx with rfl | hxt
      · have hmap : t.map (fun v => (if v = x then w else dist v).toNat)
            = t.map (fun v => (dist v).toNat) := by
          apply List.map_congr_left
          intro v hv
          have hvx : v ≠ x := fun hh => hand.1 (hh ▸ hv)
          rw [if_neg hvx]
        simp only [phi, List.map_cons, List.sum_cons]
        rw [if_pos trivial, hmap]
        omega
      · by_cases hax : a = x
        · exact absurd (hax ▸ hxt) hand.1
        · have ih2 := ih hand.2 hxt
          simp only [phi, List.map_cons, List.sum_cons, if_neg hax] at ih2 ⊢
          omega

theorem foldl_min_mem (rest : List (Int × Int)) :
    ∀ acc : Int × Int,
      rest.foldl (fun m q => if pairLe m q then m else q) acc = acc ∨
      rest.foldl (fun m q => if pairLe m q then m else q) acc ∈ rest := by
  induction rest with
  | nil => intro acc; exact Or.inl rfl
  | cons b t ih =>
      intro acc
      rw [List.foldl_cons]
      by_cases hc : pairLe acc b
      · rw [if_pos hc]
        rcases ih acc with h | h
        · exact Or.inl h
        · exact Or.inr (List.mem_cons_of_mem _ h)
      · rw [if_neg hc]
        rcases ih b with h | h
        · exact Or.inr (by rw [h]; exact List.mem_cons_self _ _)
        · exact Or.inr (List.mem_cons_of_mem _ h)

theorem pqPopNE_mem (p : Int × Int) (rest : List (Int × Int)) :
    (pqPopNE p rest).1 ∈ p :: rest := by
  show (rest.foldl (fun m q => if pairLe m q then m else q) p) ∈ p :: rest
  rcases foldl_min_mem rest p with h | h
  · rw [h]; exact List.mem_cons_self _ _
  · exact List.mem_cons_of_mem _ h

theorem pqPopNE_len (p : Int × Int) (rest : List (Int × Int)) :
    ((pqPopNE p rest).2).length = rest.length := by
  show ((p :: rest).erase (pqPopNE p rest).1).length = rest.length
  rw [List.length_erase_of_mem (pqPopNE_mem p rest)]
  simp

theorem pqPopNE_sub (p : Int × Int) (rest : List (Int × Int)) :
    ∀ q ∈ (pqPopNE p rest).2, q ∈ p :: rest := by
  intro q hq
  exact List.erase_subset _ _ hq

/-- The weight slots of the stored adjacency are the inserted weights. -/
theorem WGraph.adj_weight (g : WGraph) (hw : ∀ ed ∈ g.wedges, 0 ≤ ed.2.2) :
    ∀ u p, p ∈ g.adj u → 0 ≤ p.2 := by
  intro u p hp
  rw [WGraph.adj, foldl_append_mem] at hp
  rcases hp with hp | ⟨e, he, hb⟩
  · cases hp
  · rcases wnbrOfEdge_mem hb with ⟨_, rfl⟩ | ⟨_, rfl⟩ <;> exact hw e he

theorem WGraph.reach_step (g : WGraph) {u : Int} {p : Int × Int} (s : Int)
    (hR : g.Reach s u) (hp : p ∈ g.adj u) : g.Reach s p.1 :=
  Relation.ReflTransGen.tail hR (List.mem_map_of_mem _ hp)

/-- Invariant and potential bookkeeping of the DAG-branch relaxation
pass, under nonnegative weights.  `Rch` abstracts "reachable from the
start": every vertex whose distance leaves the sentinel is reachable,
distances stay in `[0, INF)`, pushed vertices are elements, and
`stack length + phi` does not increase. -/
theorem dagProcess_spec (elems : List Int) (helems : elems.Nodup)
    (Rch : Int → Prop) (cur : Int) :
    ∀ (l : List (Int × Int)) (stk : List Int) (dist : Int → Int),
      (∀ p ∈ l, p.1 ∈ elems ∧ 0 ≤ p.2 ∧ Rch p.1) →
      0 ≤ dist cur →
      (∀ v ∈ elems, dist v = INF ∨ (0 ≤ dist v ∧ dist v < INF ∧ Rch v)) →
      (∀ v ∈ stk, v ∈ elems) →
      (∀ v ∈ (dagProcess cur l stk dist).1, v ∈ elems) ∧
      (∀ v ∈ elems, (dagProcess cur l stk dist).2 v = INF ∨
        (0 ≤ (dagProcess cur l stk dist).2 v ∧
         (dagProcess cur l stk dist).2 v < INF ∧ Rch v)) ∧
      (dagProcess cur l stk dist).1.length + phi elems ((dagProcess cur l stk dist).2)
        ≤ stk.length + phi elems dist := by
  intro l
  induction l with
  | nil =>
      intro stk dist _ _ hI hstk
      exact ⟨hstk, hI, le_refl _⟩
  | cons p t ih =>
      intro stk dist hl hc hI hstk
      obtain ⟨x, w⟩ := p
      obtain ⟨hp1, hp2, hp3⟩ := hl (x, w) (List.mem_cons_self _ _)
      have hltail : ∀ p ∈ t, p.1 ∈ elems ∧ 0 ≤ p.2 ∧ Rch p.1 :=
        fun p hp => hl p (List.mem_cons_of_mem _ hp)
      by_cases hrel : dist x > dist cur + w
      · rw [dagProcess, if_pos hrel]
        have hxcur : x ≠ cur := by
          intro hh; subst hh; omega
        have hnew0 : 0 ≤ dist cur + w := by omega
        have hnewINF : dist cur + w < INF := by
          rcases hI x hp1 with hx | ⟨_, hx2, _⟩ <;> omega
        have hI2 : ∀ v ∈ elems,
            (fun v => if v = x then dist cur + w else dist v) v = INF ∨
            (0 ≤ (fun v => if v = x then dist cur + w else dist v) v ∧
             (fun v => if v = x then dist cur + w else dist v) v < INF ∧ Rch v) := by
          intro v hv
          by_cases hvx : v = x
          · subst hvx
            right
            simp only [if_pos rfl]
            exact ⟨hnew0, hnewINF, hp3⟩
          · simp only [if_neg hvx]
            exact hI v hv
        have hc2 : 0 ≤ (fun v => if v = x then dist cur + w else dist v) cur := by
          simp only [if_neg (Ne.symm hxcur)]
          exact hc
        have hphi := phi_update elems helems x hp1 dist (dist cur + w)
        obtain ⟨k1, k2, k3⟩ := ih (x :: stk) _ hltail hc2 hI2
          (fun v hv => by
            rcases List.mem_cons.mp hv with rfl | hv
            · exact hp1
            · exact hstk v hv)
        refine ⟨k1, k2, ?_⟩
        have htn : (dist cur + w).toNat < (dist x).toNat := by omega
        simp only [List.length_cons] at k3
        omega
      · rw [dagProcess, if_neg hrel]
        exact ih stk dist hltail hc hI hstk

/-- The DAG-branch work loop terminates within any fuel exceeding the
potential, and ends with every non-sentinel element distance reachable. -/
theorem dagLoop_spec (adjw : Int → List (Int × Int)) (elems : List Int)
    (helems : elems.Nodup) (Rch : Int → Prop)
    (hstep : ∀ u p, Rch u → p ∈ adjw u → Rch p.1)
    (hadj : ∀ u p, p ∈ adjw u → u ∈ elems ∧ p.1 ∈ elems)
    (hw : ∀ u p, p ∈ adjw u → 0 ≤ p.2) :
    ∀ (fuel : Nat) (stack : List Int) (dist : Int → Int),
      (∀ v ∈ stack, v ∈ elems) →
      (∀ v ∈ elems, dist v = INF ∨ (0 ≤ dist v ∧ dist v < INF ∧ Rch v)) →
      stack.length + phi elems dist < fuel →
      ∃ dist2, dagLoop adjw fuel stack dist = some dist2 ∧
        ∀ v ∈ elems, dist2 v = INF ∨ (0 ≤ dist2 v ∧ dist2 v < INF ∧ Rch v) := by
  intro fuel
  induction fuel with
  | zero =>
      intro stack dist hstk hI hm
      cases stack with
      | nil => exact ⟨dist, rfl, hI⟩
      | cons a t => omega
  | succ n ih =>
      intro stack dist hstk hI hm
      cases stack with
      | nil => exact ⟨dist, rfl, hI⟩
      | cons cur rest =>
          rw [dagLoop]
          by_cases hcur : dist cur = INF
          · rw [if_pos hcur]
            refine ih rest dist (fun v hv => hstk v (List.mem_cons_of_mem _ hv)) hI ?_
            simp only [List.length_cons] at hm
            omega
          · rw [if_neg hcur]
            have hcel : cur ∈ elems := hstk cur (List.mem_cons_self _ _)
            rcases hI cur hcel with h | ⟨h0, hINF, hR⟩
            · exact absurd h hcur
            obtain ⟨k1, k2, k3⟩ := dagProcess_spec elems helems Rch cur (adjw cur) rest dist
              (fun p hp => ⟨(hadj cur p hp).2, hw cur p hp, hstep cur p hR hp⟩) h0 hI
              (fun v hv => hstk v (List.mem_cons_of_mem _ hv))
            refine ih _ _ k1 k2 ?_
            simp only [List.length_cons] at hm
            omega

/-- Invariant and potential bookkeeping of the Dijkstra relaxation pass
(nonnegative weights): queue entries keep nonnegative priorities on
reachable element vertices, and `queue length + phi` does not
increase. -/
theorem dijProcess_spec (elems : List Int) (helems : elems.Nodup)
    (Rch : Int → Prop) (cd : Int) (hcd : 0 ≤ cd) :
    ∀ (l : List (Int × Int)) (pq : List (Int × Int)) (dist : Int → Int),
      (∀ p ∈ l, p.1 ∈ elems ∧ 0 ≤ p.2 ∧ Rch p.1) →
      (∀ p ∈ pq, 0 ≤ p.1 ∧ p.2 ∈ elems ∧ Rch p.2) →
      (∀ v ∈ elems, dist v = INF ∨ (0 ≤ dist v ∧ dist v < INF ∧ Rch v)) →
      (∀ p ∈ (dijProcess cd l pq dist).1, 0 ≤ p.1 ∧ p.2 ∈ elems ∧ Rch p.2) ∧
      (∀ v ∈ elems, (dijProcess cd l pq dist).2 v = INF ∨
        (0 ≤ (dijProcess cd l pq dist).2 v ∧
         (dijProcess cd l pq dist).2 v < INF ∧ Rch v)) ∧
      (dijProcess cd l pq dist).1.length + phi elems ((dijProcess cd l pq dist).2)
        ≤ pq.length + phi elems dist := by
  intro l
  induction l with
  | nil =>
      intro pq dist _ hpq hI
      exact ⟨hpq, hI, le_refl _⟩
  | cons p t ih =>
      intro pq dist hl hpq hI
      obtain ⟨x, w⟩ := p
      obtain ⟨hp1, hp2, hp3⟩ := hl (x, w) (List.mem_cons_self _ _)
      have hltail : ∀ p ∈ t, p.1 ∈ elems ∧ 0 ≤ p.2 ∧ Rch p.1 :=
        fun p hp => hl p (List.mem_cons_of_mem _ hp)
      by_cases hrel : cd + w < dist x
      · rw [dijProcess, if_pos hrel]
        have hnew0 : 0 ≤ cd + w := by omega
        have hnewINF : cd + w < INF := by
          rcases hI x hp1 with hx | ⟨_, hx2, _⟩ <;> omega
        have hI2 : ∀ v ∈ elems,
            (fun v => if v = x then cd + w else dist v) v = INF ∨
            (0 ≤ (fun v => if v = x then cd + w else dist v) v ∧
             (fun v => if v = x then cd + w else dist v) v < INF ∧ Rch v) := by
          intro v hv
          by_cases hvx : v = x
          · subst hvx
            right
            simp only [if_pos rfl]
            exact ⟨hnew0, hnewINF, hp3⟩
          · simp only [if_neg hvx]
            exact hI v hv
        have hpq2 : ∀ p ∈ pq ++ [(cd + w, x)], 0 ≤ p.1 ∧ p.2 ∈ elems ∧ Rch p.2 := by
          intro p hp
          rcases List.mem_append.mp hp with hp | hp
          · exact hpq p hp
          · rw [List.mem_singleton] at hp
            subst hp
            exact ⟨hnew0, hp1, hp3⟩
        have hphi := phi_update elems helems x hp1 dist (cd + w)
        obtain ⟨k1, k2, k3⟩ := ih (pq ++ [(cd + w, x)]) _ hltail hpq2 hI2
        refine ⟨k1, k2, ?_⟩
        have htn : (cd + w).toNat < (dist x).toNat := by omega
        rw [List.length_append] at k3
        simp only [List.length_singleton] at k3
        omega
      · rw [dijProcess, if_neg hrel]
        exact ih pq dist hltail hpq hI

/-- The Dijkstra work loop terminates within any fuel exceeding the
potential, and ends with every non-sentinel element distance
reachable. -/
theorem dijLoop_spec (adjw : Int → List (Int × Int)) (elems : List Int)
    (helems : elems.Nodup) (Rch : Int → Prop)
    (hstep : ∀ u p, Rch u → p ∈ adjw u → Rch p.1)
    (hadj : ∀ u p, p ∈ adjw u → u ∈ elems ∧ p.1 ∈ elems)
    (hw : ∀ u p, p ∈ adjw u → 0 ≤ p.2) :
    ∀ (fuel : Nat) (pq : List (Int × Int)) (dist : Int → Int),
      (∀ p ∈ pq, 0 ≤ p.1 ∧ p.2 ∈ elems ∧ Rch p.2) →
      (∀ v ∈ elems, dist v = INF ∨ (0 ≤ dist v ∧ dist v < INF ∧ Rch v)) →
      pq.length + phi elems dist < fuel →
      ∃ dist2, dijLoop adjw fuel pq dist = some dist2 ∧
        ∀ v ∈ elems, dist2 v = INF ∨ (0 ≤ dist2 v ∧ dist2 v < INF ∧ Rch v) := by
  intro fuel
  induction fuel with
  | zero =>
      intro pq dist hpq hI hm
      cases pq with
      | nil => exact ⟨dist, rfl, hI⟩
      | cons a t => omega
  | succ n ih =>
      intro pq dist hpq hI hm
      cases pq with
      | nil => exact ⟨dist, rfl, hI⟩
      | cons p rest =>
          rw [dijLoop]
          obtain ⟨hm0, hmel, hmR⟩ := hpq (pqPopNE p rest).1 (pqPopNE_mem p rest)
          have hpq2 : ∀ q ∈ (pqPopNE p rest).2, 0 ≤ q.1 ∧ q.2 ∈ elems ∧ Rch q.2 :=
            fun q hq => hpq q (pqPopNE_sub p rest q hq)
          obtain ⟨k1, k2, k3⟩ := dijProcess_spec elems helems Rch (pqPopNE p rest).1.1 hm0
            (adjw (pqPopNE p rest).1.2) (pqPopNE p rest).2 dist
            (fun q hq => ⟨(hadj _ q hq).2, hw _ q hq, hstep _ q hmR hq⟩)
            hpq2 hI
          refine ih _ _ k1 k2 ?_
          have hlen := pqPopNE_len p rest
          simp only [List.length_cons] at hm
          omega

theorem phi_le (elems : List Int) (dist : Int → Int) (B : Nat)
    (h : ∀ v ∈ elems, (dist v).toNat ≤ B) : phi elems dist ≤ elems.length * B := by
  induction elems with
  | nil => simp [phi]
  | cons a t ih =>
      have ha := h a (List.mem_cons_self _ _)
      have ih2 := ih (fun v hv => h v (List.mem_cons_of_mem _ hv))
      simp only [phi, List.map_cons, List.sum_cons, List.length_cons, Nat.succ_mul] at ih2 ⊢
      omega

/-- C5 amended: `shortest_path` returns the sentinel `−1` whenever an
endpoint is absent; and when both endpoints are present, **all edge
weights are nonnegative**, and `end` is unreachable from `start`, it
also returns `−1`.  (Without the nonnegativity proviso the call can run
forever — see the C5 counterexample.) -/
theorem C5_amended_sentinel (g : WGraph) (s e : Int) :
    ((s ∉ g.elements ∨ e ∉ g.elements) → g.shortest_path s e = some (-1)) ∧
    (s ∈ g.elements → e ∈ g.elements → (∀ ed ∈ g.wedges, 0 ≤ ed.2.2) →
      ¬ g.Reach s e → g.shortest_path s e = some (-1)) := by
  constructor
  · intro h
    unfold WGraph.shortest_path
    by_cases hs : s ∉ g.elements
    · rw [if_pos hs]
    · rw [if_neg hs]
      have he : e ∉ g.elements := by tauto
      rw [if_pos he]
  · intro hs he hw hnr
    unfold WGraph.shortest_path
    rw [if_neg (not_not_intro hs), if_neg (not_not_intro he)]
    have helems := g.welements_nodup
    have hstep : ∀ u p, g.Reach s u → p ∈ g.adj u → g.Reach s p.1 :=
      fun u p hR hp => g.reach_step s hR hp
    have hadj : ∀ u (p : Int × Int), p ∈ g.adj u → u ∈ g.elements ∧ p.1 ∈ g.elements :=
      fun u p hp => g.wadj_mem hp
    have hwadj := g.adj_weight hw
    have hI0 : ∀ v ∈ g.elements, spDist0 g.elements s v = INF ∨
        (0 ≤ spDist0 g.elements s v ∧ spDist0 g.elements s v < INF ∧ g.Reach s v) := by
      intro v hv
      unfold spDist0
      by_cases hvs : v = s
      · subst hvs
        right
        rw [if_pos rfl]
        exact ⟨le_refl 0, by decide, Relation.ReflTransGen.refl⟩
      · rw [if_neg hvs, if_pos hv]
        exact Or.inl rfl
    have hphi0 : phi g.elements (spDist0 g.elements s)
        ≤ g.elements.length * 9223372036854775808 := by
      apply phi_le
      intro v _
      unfold spDist0
      by_cases hvs : v = s
      · rw [if_pos hvs]; omega
      · rw [if_neg hvs]
        by_cases hv2 : v ∈ g.elements
        · rw [if_pos hv2]; decide
        · rw [if_neg hv2]; omega
    by_cases hbr : g.cycle = false ∧ g.gtype = "directed"
    · rw [if_pos hbr]
      obtain ⟨hnd, hsub, _⟩ := topoSortG_spec g.elements g.nbr helems
        (fun a b hh => g.nbr_mem hh)
      have hlen : g.topological_sort.length ≤ g.elements.length :=
        (hnd.subperm hsub).length_le
      obtain ⟨dist2, hrun, hI2⟩ := dagLoop_spec g.adj g.elements helems (g.Reach s)
        hstep hadj hwadj (wFuel g) g.topological_sort (spDist0 g.elements s)
        hsub hI0 (by unfold wFuel; omega)
      rw [hrun]
      show some (if dist2 e = INF then -1 else dist2 e) = some (-1)
      rcases hI2 e he with hinf | ⟨_, _, hR⟩
      · rw [if_pos hinf]
      · exact absurd hR hnr
    · rw [if_neg hbr]
      have hpq0 : ∀ p ∈ [((0 : Int), s)], 0 ≤ p.1 ∧ p.2 ∈ g.elements ∧ g.Reach s p.2 := by
        intro p hp
        rw [List.mem_singleton] at hp
        subst hp
        exact ⟨le_refl 0, hs, Relation.ReflTransGen.refl⟩
      obtain ⟨dist2, hrun, hI2⟩ := dijLoop_spec g.adj g.elements helems (g.Reach s)
        hstep hadj hwadj (wFuel g) [(0, s)] (spDist0 g.elements s)
        hpq0 hI0 (by unfold wFuel; simp only [List.length_singleton]; omega)
      rw [hrun]
      show some (if dist2 e = INF then -1 else dist2 e) = some (-1)
      rcases hI2 e he with hinf | ⟨_, _, hR⟩
      · rw [if_pos hinf]
      · exact absurd hR hnr

theorem C5_witness :
    gC5w.shortest_path 1 3 = some (-1) ∧ gC5w.shortest_path 5 1 = some (-1) :=
  ⟨(C5_amended_sentinel gC5w 1 3).2 (by decide) (by decide) (by decide)
      (fun h => absurd (reach_closed gC5w [1, 2] 1 3 (by decide) (by decide) h) (by decide)),
    (C5_amended_sentinel gC5w 5 1).1 (Or.inl (by decide))⟩

/-! ### C8: the touched keys of every query lie in `_elements` -/

theorem insKeys_mem {k : Int} : ∀ {l ks : List Int}, k ∈ insKeys ks l ↔ k ∈ ks ∨ k ∈ l := by
  intro l
  induction l with
  | nil => intro ks; simp [insKeys]
  | cons x t ih =>
      intro ks
      have he : insKeys ks (x :: t) = insKeys (insElem ks x) t := rfl
      rw [he, ih, insElem_mem]
      constructor
      · rintro ((h | rfl) | h)
        · exact Or.inl h
        · exact Or.inr (List.mem_cons_self _ _)
        · exact Or.inr (List.mem_cons_of_mem _ h)
      · rintro (h | h)
        · exact Or.inl (Or.inl h)
        · rcases List.mem_cons.mp h with rfl | h
          · exact Or.inl (Or.inr rfl)
          · exact Or.inr h

theorem pushNbrsU_sub {S : List Int} :
    ∀ (nbrs s vis : List Int), (∀ v ∈ nbrs, v ∈ S) → (∀ v ∈ s, v ∈ S) →
      (∀ v ∈ vis, v ∈ S) →
      (∀ v ∈ (pushNbrsU nbrs s vis).1, v ∈ S) ∧ (∀ v ∈ (pushNbrsU nbrs s vis).2, v ∈ S)
  | [], _, _, _, hs, hv => ⟨hs, hv⟩
  | x :: t, s, vis, hn, hs, hv => by
      have hx : x ∈ S := hn x (List.mem_cons_self _ _)
      have ht : ∀ v ∈ t, v ∈ S := fun v h => hn v (List.mem_cons_of_mem _ h)
      unfold pushNbrsU
      split
      · exact pushNbrsU_sub t s vis ht hs hv
      · refine pushNbrsU_sub t (x :: s) (vis ++ [x]) ht ?_ ?_
        · intro v h
          rcases List.mem_cons.mp h with rfl | h
          · exact hx
          · exact hs v h
        · intro v h
          rcases List.mem_append.mp h with h | h
          · exact hv v h
          · rw [List.mem_singleton] at h; exact h ▸ hx

theorem pushNbrsUQ_sub {S : List Int} :
    ∀ (nbrs q vis : List Int), (∀ v ∈ nbrs, v ∈ S) → (∀ v ∈ q, v ∈ S) →
      (∀ v ∈ vis, v ∈ S) →
      (∀ v ∈ (pushNbrsUQ nbrs q vis).1, v ∈ S) ∧ (∀ v ∈ (pushNbrsUQ nbrs q vis).2, v ∈ S)
  | [], _, _, _, hq, hv => ⟨hq, hv⟩
  | x :: t, q, vis, hn, hq, hv => by
      have hx : x ∈ S := hn x (List.mem_cons_self _ _)
      have ht : ∀ v ∈ t, v ∈ S := fun v h => hn v (List.mem_cons_of_mem _ h)
      unfold pushNbrsUQ
      split
      · exact pushNbrsUQ_sub t q vis ht hq hv
      · refine pushNbrsUQ_sub t (q ++ [x]) (vis ++ [x]) ht ?_ ?_
        · intro v h
          rcases List.mem_append.mp h with h | h
          · exact hq v h
          · rw [List.mem_singleton] at h; exact h ▸ hx
        · intro v h
          rcases List.mem_append.mp h with h | h
          · exact hv v h
          · rw [List.mem_singleton] at h; exact h ▸ hx

theorem appendOne_sub {S l : List Int} {c : Int} (hl : ∀ v ∈ l, v ∈ S) (hc : c ∈ S) :
    ∀ v ∈ l ++ [c], v ∈ S := by
  intro v h
  rcases List.mem_append.mp h with h | h
  · exact hl v h
  · rw [List.mem_singleton] at h; exact h ▸ hc

theorem udfsLoop_sub {S : List Int} (adjf : Int → List Int)
    (hadj : ∀ u v, v ∈ adjf u → v ∈ S) :
    ∀ (fuel : Nat) (s vis path : List Int), (∀ v ∈ s, v ∈ S) → (∀ v ∈ vis, v ∈ S) →
      (∀ v ∈ path, v ∈ S) → ∀ v ∈ (udfsLoop adjf fuel s vis path).getD [], v ∈ S := by
  intro fuel
  induction fuel with
  | zero =>
      intro s vis path _ _ hp v hmem
      cases s with
      | nil => exact hp v (by simpa [udfsLoop] using hmem)
      | cons c cs => simp [udfsLoop] at hmem
  | succ f ih =>
      intro s vis path hs hv hp v hmem
      cases s with
      | nil => exact hp v (by simpa [udfsLoop] using hmem)
      | cons cur s2 =>
          have hcur : cur ∈ S := hs cur (List.mem_cons_self _ _)
          have hs2 : ∀ w ∈ s2, w ∈ S := fun w hw => hs w (List.mem_cons_of_mem _ hw)
          have hps := pushNbrsU_sub (adjf cur) s2 vis (fun w hw => hadj cur w hw) hs2 hv
          exact ih _ _ _ hps.1 hps.2 (appendOne_sub hp hcur) v
            (by simpa [udfsLoop] using hmem)

theorem dfs_touched_sub (g : Graph) (s : Int) :
    ∀ v ∈ (g.dfs s).getD [], v ∈ g.elements := by
  intro v hmem
  unfold Graph.dfs at hmem
  split at hmem
  · simp at hmem
  · next hcond =>
      push_neg at hcond
      refine udfsLoop_sub g.adj (fun _ w hw => (Graph.adj_mem g hw).2) _ _ _ _ ?_ ?_ ?_ v hmem
      · intro w hw; rw [List.mem_singleton] at hw; exact hw ▸ hcond.2
      · intro w hw; rw [List.mem_singleton] at hw; exact hw ▸ hcond.2
      · intro w hw; cases hw

theorem ubfsInner_sub {S : List Int} (adjf : Int → List Int)
    (hadj : ∀ u v, v ∈ adjf u → v ∈ S) :
    ∀ (i : Nat) (q vis path : List Int), (∀ v ∈ q, v ∈ S) → (∀ v ∈ vis, v ∈ S) →
      (∀ v ∈ path, v ∈ S) →
      (∀ v ∈ (ubfsInner adjf i q vis path).1, v ∈ S) ∧
      (∀ v ∈ (ubfsInner adjf i q vis path).2.1, v ∈ S) ∧
      (∀ v ∈ (ubfsInner adjf i q vis path).2.2, v ∈ S) := by
  intro i
  induction i with
  | zero => intro q vis path hq hv hp; exact ⟨hq, hv, hp⟩
  | succ i ih =>
      intro q vis path hq hv hp
      cases q with
      | nil => exact ⟨fun v h => absurd h (List.not_mem_nil v), hv, hp⟩
      | cons cur q2 =>
          have hcur : cur ∈ S := hq cur (List.mem_cons_self _ _)
          have hq2 : ∀ w ∈ q2, w ∈ S := fun w hw => hq w (List.mem_cons_of_mem _ hw)
          have hps := pushNbrsUQ_sub (adjf cur) q2 vis (fun w hw => hadj cur w hw) hq2 hv
          exact ih _ _ _ hps.1 hps.2 (appendOne_sub hp hcur)

theorem ubfsLoop_sub {S : List Int} (adjf : Int → List Int)
    (hadj : ∀ u v, v ∈ adjf u → v ∈ S) :
    ∀ (fuel : Nat) (q vis path : List Int), (∀ v ∈ q, v ∈ S) → (∀ v ∈ vis, v ∈ S) →
      (∀ v ∈ path, v ∈ S) → ∀ v ∈ (ubfsLoop adjf fuel q vis path).getD [], v ∈ S := by
  intro fuel
  induction fuel with
  | zero =>
      intro q vis path _ _ hp v hmem
      cases q with
      | nil => exact hp v (by simpa [ubfsLoop] using hmem)
      | cons c cs => simp [ubfsLoop] at hmem
  | succ f ih =>
      intro q vis path hq hv hp v hmem
      cases q with
      | nil => exact hp v (by simpa [ubfsLoop] using hmem)
      | cons cur q2 =>
          have hin := ubfsInner_sub adjf hadj (cur :: q2).length (cur :: q2) vis path hq hv hp
          exact ih _ _ _ hin.1 hin.2.1 hin.2.2 v (by simpa [ubfsLoop] using hmem)

theorem bfs_touched_sub (g : Graph) (s : Int) :
    ∀ v ∈ (g.bfs s).getD [], v ∈ g.elements := by
  intro v hmem
  unfold Graph.bfs at hmem
  split at hmem
  · simp at hmem
  · next hcond =>
      push_neg at hcond
      refine ubfsLoop_sub g.adj (fun _ w hw => (Graph.adj_mem g hw).2) _ _ _ _ ?_ ?_ ?_ v hmem
      · intro w hw; rw [List.mem_singleton] at hw; exact hw ▸ hcond.2
      · intro w hw; rw [List.mem_singleton] at hw; exact hw ▸ hcond.2
      · intro w hw; cases hw

theorem exploreStack_sub {S : List Int} (adjf : Int → List Int)
    (hadj : ∀ u v, v ∈ adjf u → v ∈ S) :
    ∀ (fuel : Nat) (stk vis : List Int), (∀ v ∈ stk, v ∈ S) → (∀ v ∈ vis, v ∈ S) →
      ∀ v ∈ exploreStack adjf fuel stk vis, v ∈ S := by
  intro fuel
  induction fuel with
  | zero =>
      intro stk vis _ hv v hmem
      cases stk with
      | nil => exact hv v hmem
      | cons c cs => exact hv v hmem
  | succ f ih =>
      intro stk vis hs hv v hmem
      cases stk with
      | nil => exact hv v hmem
      | cons cur s2 =>
          have hs2 : ∀ w ∈ s2, w ∈ S := fun w hw => hs w (List.mem_cons_of_mem _ hw)
          have hps := pushNbrsU_sub (adjf cur) s2 vis (fun w hw => hadj cur w hw) hs2 hv
          exact ih _ _ hps.1 hps.2 v (by simpa [exploreStack] using hmem)

theorem ccExplore_sub {S : List Int} (adjf : Int → List Int)
    (hadj : ∀ u v, v ∈ adjf u → v ∈ S) :
    ∀ (fuel : Nat) (q vis : List Int), (∀ v ∈ q, v ∈ S) → (∀ v ∈ vis, v ∈ S) →
      ∀ v ∈ ccExplore adjf fuel q vis, v ∈ S := by
  intro fuel
  induction fuel with
  | zero =>
      intro q vis _ hv v hmem
      cases q with
      | nil => exact hv v hmem
      | cons c cs => exact hv v hmem
  | succ f ih =>
      intro q vis hq hv v hmem
      cases q with
      | nil => exact hv v hmem
      | cons cur q2 =>
          have hq2 : ∀ w ∈ q2, w ∈ S := fun w hw => hq w (List.mem_cons_of_mem _ hw)
          have hps := pushNbrsUQ_sub (adjf cur) q2 vis (fun w hw => hadj cur w hw) hq2 hv
          exact ih _ _ hps.1 hps.2 v (by simpa [ccExplore] using hmem)

theorem ccLoop_sub {S : List Int} (adjf : Int → List Int) (fuel : Nat)
    (hadj : ∀ u v, v ∈ adjf u → v ∈ S) :
    ∀ (eiter vis : List Int) (cc : Int), (∀ x ∈ eiter, x ∈ S) → (∀ v ∈ vis, v ∈ S) →
      ∀ v ∈ (ccLoop adjf fuel eiter vis cc).2, v ∈ S
  | [], _, _, _, hv => hv
  | x :: rest, vis, cc, he, hv => by
      have hx : x ∈ S := he x (List.mem_cons_self _ _)
      have ht : ∀ w ∈ rest, w ∈ S := fun w hw => he w (List.mem_cons_of_mem _ hw)
      unfold ccLoop
      split
      · exact ccLoop_sub adjf fuel hadj rest vis cc ht hv
      · refine ccLoop_sub adjf fuel hadj rest _ (cc + 1) ht ?_
        refine ccExplore_sub adjf hadj fuel [x] (vis ++ [x]) ?_ (appendOne_sub hv hx)
        intro w hw; rw [List.mem_singleton] at hw; exact hw ▸ hx

theorem ccTouched_sub (g : Graph) : ∀ v ∈ ccTouched g, v ∈ g.elements := by
  unfold ccTouched
  exact ccLoop_sub g.adj _ (fun _ w hw => (Graph.adj_mem g hw).2) g.elements [] 0
    (fun x hx => hx) (fun v hv => absurd hv (List.not_mem_nil v))

theorem append_sub {S l1 l2 : List Int} (h1 : ∀ v ∈ l1, v ∈ S) (h2 : ∀ v ∈ l2, v ∈ S) :
    ∀ v ∈ l1 ++ l2, v ∈ S := by
  intro v h
  rcases List.mem_append.mp h with h | h
  · exact h1 v h
  · exact h2 v h

theorem cycleProcess_queue_sub :
    ∀ (l q : List Int) (indeg : Int → Int), ∀ v ∈ (cycleProcess l q indeg).1, v ∈ q ∨ v ∈ l
  | [], _, _, _, h => Or.inl h
  | x :: t, q, indeg, v, h => by
      simp only [cycleProcess, if_true] at h
      by_cases hc : indeg x - 1 = 0
      · rw [if_pos hc] at h
        rcases cycleProcess_queue_sub t (q ++ [x]) _ v h with h2 | h2
        · rcases List.mem_append.mp h2 with h3 | h3
          · exact Or.inl h3
          · rw [List.mem_singleton] at h3
            exact Or.inr (h3 ▸ List.mem_cons_self _ _)
        · exact Or.inr (List.mem_cons_of_mem _ h2)
      · rw [if_neg hc] at h
        rcases cycleProcess_queue_sub t q _ v h with h2 | h2
        · exact Or.inl h2
        · exact Or.inr (List.mem_cons_of_mem _ h2)

theorem cycleLoop_pops_sub {S : List Int} (adjf : Int → List Int)
    (hadj : ∀ u v, v ∈ adjf u → v ∈ S) :
    ∀ (fuel : Nat) (q : List Int) (indeg : Int → Int) (pops : List Int),
      (∀ v ∈ q, v ∈ S) → (∀ v ∈ pops, v ∈ S) →
      ∀ v ∈ (cycleLoop adjf fuel q indeg pops).getD [], v ∈ S := by
  intro fuel
  induction fuel with
  | zero =>
      intro q indeg pops _ hp v h
      cases q with
      | nil => exact hp v (by simpa [cycleLoop] using h)
      | cons c cs => simp [cycleLoop] at h
  | succ f ih =>
      intro q indeg pops hq hp v h
      cases q with
      | nil => exact hp v (by simpa [cycleLoop] using h)
      | cons cur q2 =>
          have hcur : cur ∈ S := hq cur (List.mem_cons_self _ _)
          have hq2 : ∀ w ∈ q2, w ∈ S := fun w hw => hq w (List.mem_cons_of_mem _ hw)
          have hnewq : ∀ w ∈ (cycleProcess (adjf cur) q2 indeg).1, w ∈ S := by
            intro w hw
            rcases cycleProcess_queue_sub (adjf cur) q2 indeg w hw with h2 | h2
            · exact hq2 w h2
            · exact hadj cur w h2
          exact ih _ _ _ hnewq (appendOne_sub hp hcur) v (by simpa [cycleLoop] using h)

theorem cyclePops_sub (g : Graph) :
    ∀ v ∈ (cyclePops g.elements g.adj).getD [], v ∈ g.elements := by
  unfold cyclePops
  refine cycleLoop_pops_sub g.adj (fun _ w hw => (Graph.adj_mem g hw).2) _ _ _ _ ?_ ?_
  · intro w hw; exact List.mem_of_mem_filter hw
  · intro w hw; cases hw

theorem topo_touched_sub (g : Graph) : ∀ v ∈ g.topological_sort, v ∈ g.elements :=
  (topoSortG_spec g.elements g.adj (Graph.elements_nodup g)
    (fun _ _ h => Graph.adj_mem g h)).2.1

theorem bipProcess_sub {S : List Int} :
    ∀ (l : List Int) (col : Int) (q color : List (Int × Int))
      (r : List (Int × Int) × List (Int × Int)),
      bipProcess l col q color = some r →
      (∀ p ∈ q, p.1 ∈ S) → (∀ x ∈ l, x ∈ S) → ∀ p ∈ r.1, p.1 ∈ S
  | [], _, q, color, r, heq, hq, _ => by
      have h2 : some (q, color) = some r := heq
      have h3 : r = (q, color) := (Option.some.inj h2).symm
      subst h3
      exact hq
  | x :: t, col, q, color, r, heq, hq, hl => by
      have hx : x ∈ S := hl x (List.mem_cons_self _ _)
      have ht : ∀ w ∈ t, w ∈ S := fun w hw => hl w (List.mem_cons_of_mem _ hw)
      cases hlk : color.lookup x with
      | some cx =>
          simp only [bipProcess, hlk] at heq
          by_cases hcc : cx = col
          · rw [if_pos hcc] at heq
            exact Option.noConfusion heq
          · rw [if_neg hcc] at heq
            exact bipProcess_sub t col q color r heq hq ht
      | none =>
          simp only [bipProcess, hlk] at heq
          refine bipProcess_sub t col _ _ r heq ?_ ht
          intro p hp
          rcases List.mem_append.mp hp with h | h
          · exact hq p h
          · rw [List.mem_singleton] at h
            subst h
            exact hx

theorem bipBFS_sub {S : List Int} (adjf : Int → List Int)
    (hadj : ∀ u v, v ∈ adjf u → v ∈ S) :
    ∀ (fuel : Nat) (q : List (Int × Int)) (color : List (Int × Int)) (pops : List Int),
      (∀ p ∈ q, p.1 ∈ S) → (∀ v ∈ pops, v ∈ S) →
      ∀ v ∈ (bipBFS adjf fuel q color pops).pops, v ∈ S := by
  intro fuel
  induction fuel with
  | zero =>
      intro q color pops _ hp v h
      cases q with
      | nil => exact hp v h
      | cons c cs => exact hp v h
  | succ f ih =>
      intro q color pops hq hp v h
      cases q with
      | nil => exact hp v h
      | cons hd q2 =>
          obtain ⟨v0, col⟩ := hd
          have hv0 : v0 ∈ S := hq (v0, col) (List.mem_cons_self _ _)
          have hq2 : ∀ p ∈ q2, p.1 ∈ S := fun p hp2 => hq p (List.mem_cons_of_mem _ hp2)
          cases hbp : bipProcess (adjf v0) col q2 color with
          | none =>
              simp only [bipBFS, hbp, BipOut.pops] at h
              exact appendOne_sub hp hv0 v h
          | some r =>
              simp only [bipBFS, hbp] at h
              exact ih r.1 r.2 (pops ++ [v0])
                (bipProcess_sub (adjf v0) col q2 color r hbp hq2
                  (fun w hw => hadj v0 w hw))
                (appendOne_sub hp hv0) v h

theorem bipOuter_sub {S : List Int} (adjf : Int → List Int) (fuel : Nat)
    (hadj : ∀ u v, v ∈ adjf u → v ∈ S) :
    ∀ (eiter : List Int) (color : List (Int × Int)) (pops : List Int),
      (∀ x ∈ eiter, x ∈ S) → (∀ v ∈ pops, v ∈ S) →
      ∀ v ∈ (bipOuter adjf fuel eiter color pops).pops, v ∈ S
  | [], _, _, _, hp => hp
  | x :: rest, color, pops, he, hp => by
      have hx : x ∈ S := he x (List.mem_cons_self _ _)
      have ht : ∀ w ∈ rest, w ∈ S := fun w hw => he w (List.mem_cons_of_mem _ hw)
      have hstart : ∀ p ∈ [(x, (0 : Int))], (p : Int × Int).1 ∈ S := by
        intro p hp2
        rw [List.mem_singleton] at hp2
        subst hp2
        exact hx
      have hb := bipBFS_sub adjf hadj fuel [(x, 0)] (color ++ [(x, 0)]) pops hstart hp
      intro v h
      simp only [bipOuter] at h
      split at h
      · exact bipOuter_sub adjf fuel hadj rest color pops ht hp v h
      · cases hbb : bipBFS adjf fuel [(x, 0)] (color ++ [(x, 0)]) pops with
        | conflict p2 =>
            rw [hbb] at h hb
            simp only [BipOut.pops] at h hb
            exact hb v h
        | finished c2 p2 =>
            rw [hbb] at h hb
            simp only [BipOut.pops] at hb
            exact bipOuter_sub adjf fuel hadj rest c2 p2 ht hb v h

theorem bipTouched_sub (g : Graph) : ∀ v ∈ bipTouched g, v ∈ g.elements := by
  unfold bipTouched
  exact bipOuter_sub g.adj _ (fun _ w hw => (Graph.adj_mem g hw).2) g.elements [] []
    (fun x hx => hx) (fun v hv => absurd hv (List.not_mem_nil v))

theorem dfsBridgeN_sub {S : List Int} (adjf : Int → List Int)
    (hadj : ∀ u v, v ∈ adjf u → v ∈ S) :
    ∀ (fuel : Nat) (start parent : Int) (pend : List Int) (st : BrState),
      (∀ v ∈ st.vis, v ∈ S) → (∀ x ∈ pend, x ∈ S) →
      ∀ v ∈ (dfsBridgeN adjf fuel start parent pend st).vis, v ∈ S := by
  intro fuel
  induction fuel with
  | zero => intro start parent pend st hv _ v h; exact hv v h
  | succ f ih =>
      intro start parent pend st hv hpend v h
      cases pend with
      | nil => exact hv v h
      | cons x rest =>
          have hx : x ∈ S := hpend x (List.mem_cons_self _ _)
          have ht : ∀ w ∈ rest, w ∈ S := fun w hw => hpend w (List.mem_cons_of_mem _ hw)
          simp only [dfsBridgeN] at h
          by_cases hxp : x = parent
          · rw [if_pos hxp] at h
            exact ih start parent rest st hv ht v h
          · rw [if_neg hxp] at h
            by_cases hxv : x ∈ st.vis
            · rw [if_pos hxv] at h
              refine ih start parent rest _ ?_ ht v h
              intro w hw
              exact hv w hw
            · rw [if_neg hxv] at h
              refine ih start parent rest _ ?_ ht v h
              intro w hw
              exact ih x start (adjf x) (brEnter st x) (appendOne_sub hv hx)
                (fun w2 hw2 => hadj x w2 hw2) w hw

theorem bridge_touched_sub (g : Graph) (s : Int) (hs : s ∈ g.elements) :
    ∀ v ∈ (g.bridge s).2, v ∈ g.elements := by
  intro v h
  refine dfsBridgeN_sub g.adj (fun _ w hw => (Graph.adj_mem g hw).2) (bridgeFuel g)
    s (-1) (g.adj s) _ ?_ ?_ v h
  · intro w hw
    simp only [brEnter, List.nil_append, List.mem_singleton] at hw
    exact hw ▸ hs
  · intro w hw
    exact (Graph.adj_mem g hw).2

theorem dfsSccN_sub {S : List Int} (adjf : Int → List Int)
    (hadj : ∀ u v, v ∈ adjf u → v ∈ S) :
    ∀ (fuel : Nat) (start : Int) (pend vis s : List Int),
      (∀ v ∈ vis, v ∈ S) → (∀ x ∈ pend, x ∈ S) →
      ∀ v ∈ (dfsSccN adjf fuel start pend vis s).1, v ∈ S := by
  intro fuel
  induction fuel with
  | zero => intro start pend vis s hv _ v h; exact hv v h
  | succ f ih =>
      intro start pend vis s hv hpend v h
      cases pend with
      | nil => exact hv v h
      | cons x rest =>
          have hx : x ∈ S := hpend x (List.mem_cons_self _ _)
          have ht : ∀ w ∈ rest, w ∈ S := fun w hw => hpend w (List.mem_cons_of_mem _ hw)
          simp only [dfsSccN] at h
          by_cases hxv : x ∈ vis
          · rw [if_pos hxv] at h
            exact ih start rest vis s hv ht v h
          · rw [if_neg hxv] at h
            refine ih start rest _ _ ?_ ht v h
            intro w hw
            exact ih x (adjf x) (vis ++ [x]) s (appendOne_sub hv hx)
              (fun w2 hw2 => hadj x w2 hw2) w hw

theorem sccPass1_sub {S : List Int} (adjf : Int → List Int) (fuel : Nat)
    (hadj : ∀ u v, v ∈ adjf u → v ∈ S) :
    ∀ (eiter vis s : List Int), (∀ x ∈ eiter, x ∈ S) → (∀ v ∈ vis, v ∈ S) →
      ∀ v ∈ (sccPass1 adjf fuel eiter vis s).1, v ∈ S
  | [], _, _, _, hv => hv
  | x :: rest, vis, s, he, hv => by
      have hx : x ∈ S := he x (List.mem_cons_self _ _)
      have ht : ∀ w ∈ rest, w ∈ S := fun w hw => he w (List.mem_cons_of_mem _ hw)
      intro v h
      simp only [sccPass1] at h
      split at h
      · exact sccPass1_sub adjf fuel hadj rest vis s ht hv v h
      · exact sccPass1_sub adjf fuel hadj rest _ _ ht
          (dfsSccN_sub adjf hadj fuel x (adjf x) (vis ++ [x]) s (appendOne_sub hv hx)
            (fun w hw => hadj x w hw))
          v h

theorem sccTouched_sub (g : Graph) : ∀ v ∈ sccTouched g, v ∈ g.elements := by
  unfold sccTouched
  split
  · intro v h; cases h
  · refine append_sub ?_ (fun v hv => hv)
    exact sccPass1_sub g.adj (sccFuel g) (fun _ w hw => (Graph.adj_mem g hw).2)
      g.elements [] [] (fun x hx => hx) (fun v hv => absurd hv (List.not_mem_nil v))

theorem connCheck_sub (adjf : Int → List Int) (vis : List Int) :
    ∀ (l : List Int), ∀ v ∈ (connCheck adjf vis l).2, v ∈ l
  | [], v, h => absurd h (List.not_mem_nil v)
  | x :: rest, v, h => by
      simp only [connCheck] at h
      split at h
      · exact List.mem_cons_of_mem _ (connCheck_sub adjf vis rest v h)
      · split at h
        · rw [List.mem_singleton] at h
          exact h ▸ List.mem_cons_self _ _
        · rcases List.mem_cons.mp h with rfl | h2
          · exact List.mem_cons_self _ _
          · exact List.mem_cons_of_mem _ (connCheck_sub adjf vis rest v h2)

theorem connTouched_sub (g : Graph) (hk : ∀ k ∈ g.adjKeys, k ∈ g.elements) :
    ∀ v ∈ connTouched g, v ∈ g.elements := by
  intro v h
  simp only [connTouched] at h
  cases hcs : g.connectedStart with
  | none => rw [hcs] at h; cases h
  | some st =>
      rw [hcs] at h
      have hst : st ∈ g.elements := by
        have h2 : g.adjKeys.find? (fun k => !(g.adj k).isEmpty) = some st := hcs
        exact hk st (List.mem_of_find?_eq_some h2)
      have hsingle : ∀ w ∈ [st], w ∈ g.elements := by
        intro w hw
        rw [List.mem_singleton] at hw
        exact hw ▸ hst
      have hvis := exploreStack_sub g.adj (fun _ w hw => (Graph.adj_mem g hw).2)
        (g.elements.length + 1) [st] [st] hsingle hsingle
      rcases List.mem_append.mp h with h | h
      · exact hvis v h
      · exact connCheck_sub g.adj _ g.elements v h

theorem elements_add_edge (g : Graph) (u v : Int) :
    (g.add_edge u v).elements = insElem (insElem g.elements u) v := by
  unfold Graph.add_edge
  split <;> simp [Graph.elements, elemsOfEdges, List.foldl_append]

theorem insKeys_pres {g : Graph} {touched : List Int}
    (hg : ∀ k ∈ g.adjKeys, k ∈ g.elements) (ht : ∀ v ∈ touched, v ∈ g.elements) :
    ∀ k ∈ insKeys g.adjKeys touched, k ∈ g.elements := by
  intro k hk
  rcases insKeys_mem.mp hk with h | h
  · exact hg k h
  · exact ht k h

/-- One public operation preserves the keys-are-vertices invariant
(with the `bridge` side condition). -/
theorem step_pres (g : Graph) (op : GOp)
    (hg : ∀ k ∈ g.adjKeys, k ∈ g.elements) (hok : opOK g op) :
    ∀ k ∈ (GOp.step g op).adjKeys, k ∈ (GOp.step g op).elements := by
  cases op with
  | add_edge u v =>
      intro k hk
      show k ∈ (g.add_edge u v).elements
      rw [elements_add_edge]
      have hmono : ∀ w, w ∈ g.elements → w ∈ insElem (insElem g.elements u) v :=
        fun w hw => insElem_mem.mpr (Or.inl (insElem_mem.mpr (Or.inl hw)))
      have hu : u ∈ insElem (insElem g.elements u) v :=
        insElem_mem.mpr (Or.inl (insElem_mem.mpr (Or.inr rfl)))
      have hvm : v ∈ insElem (insElem g.elements u) v := insElem_mem.mpr (Or.inr rfl)
      have hk2 : k ∈ (g.add_edge u v).adjKeys := hk
      unfold Graph.add_edge at hk2
      split at hk2
      · rcases insElem_mem.mp hk2 with hk3 | rfl
        · rcases insElem_mem.mp hk3 with hk4 | rfl
          · exact hmono k (hg k hk4)
          · exact hu
        · exact hvm
      · rcases insElem_mem.mp hk2 with hk3 | rfl
        · exact hmono k (hg k hk3)
        · exact hu
  | has_edge u v =>
      refine insKeys_pres hg ?_
      intro w hw
      split at hw
      · rw [List.mem_singleton] at hw
        exact hw ▸ (by assumption)
      · cases hw
  | clear => exact fun k hk => absurd hk (List.not_mem_nil k)
  | empty => exact hg
  | size => exact hg
  | dfs s => exact insKeys_pres hg (dfs_touched_sub g s)
  | bfs s => exact insKeys_pres hg (bfs_touched_sub g s)
  | connected_components => exact insKeys_pres hg (ccTouched_sub g)
  | cycle => exact insKeys_pres hg (append_sub (fun v hv => hv) (cyclePops_sub g))
  | topological_sort => exact insKeys_pres hg (append_sub (fun v hv => hv) (topo_touched_sub g))
  | bipartite => exact insKeys_pres hg (bipTouched_sub g)
  | bridge s => exact insKeys_pres hg (bridge_touched_sub g s hok)
  | scc => exact insKeys_pres hg (sccTouched_sub g)
  | connected => exact insKeys_pres hg (connTouched_sub g hg)
  | eulerian => exact insKeys_pres hg (connTouched_sub g hg)

/-- C8 counterexample: on the directed graph built by `add_edge(0, 1)`,
calling the public operation `bridge(5)` with the unknown start vertex
`5` reads `adj[5]` (line 457: `this->dfs_bridge(start, -1, ...)` visits
`start` unconditionally), which default-inserts the key `5` into the
adjacency map while `_elements` still lacks `5` — the claimed invariant
"the vertex set is a superset of the adjacency keys" is broken by this
public-operation sequence. -/
theorem C8_counterexample :
    (5 : Int) ∈ (runOps (mkGraph "directed" [(0, 1)]) [.bridge 5]).adjKeys ∧
    (5 : Int) ∉ (runOps (mkGraph "directed" [(0, 1)]) [.bridge 5]).elements := by
  decide

/-- C8 (amended): for every starting state whose adjacency-map keys all
lie in `_elements` (in particular any graph built purely by `add_edge`)
and every sequence of public operations in which `bridge(start)` is only
invoked with `start` a current vertex, the vertex set remains a superset
of both the keys and the neighbour values of the adjacency map.
(Without the `bridge` side condition the first conjunct fails, see
`C8_counterexample`; the value half is unconditional.) -/
theorem C8_amended_vertex_superset_invariant (g : Graph) (ops : List GOp)
    (hg : ∀ k ∈ g.adjKeys, k ∈ g.elements) (hval : ValidOps g ops) :
    (∀ k ∈ (runOps g ops).adjKeys, k ∈ (runOps g ops).elements) ∧
    (∀ u v : Int, v ∈ (runOps g ops).adj u →
      u ∈ (runOps g ops).elements ∧ v ∈ (runOps g ops).elements) := by
  refine ⟨?_, fun u v h => Graph.adj_mem _ h⟩
  induction ops generalizing g with
  | nil => exact hg
  | cons op rest ih => exact ih (GOp.step g op) (step_pres g op hg hval.1) hval.2

/-- Witness: a concrete valid operation sequence exercising a mutator,
a guarded `bridge`, and the other queries. -/
theorem C8_witness :
    (∀ k ∈ (runOps (mkGraph "directed" [(0, 1)])
        [.add_edge 1 2, .bridge 1, .cycle, .scc, .connected, .eulerian, .bipartite,
         .dfs 0, .bfs 1, .connected_components, .topological_sort, .has_edge 0 1,
         .size, .empty]).adjKeys,
      k ∈ (runOps (mkGraph "directed" [(0, 1)])
        [.add_edge 1 2, .bridge 1, .cycle, .scc, .connected, .eulerian, .bipartite,
         .dfs 0, .bfs 1, .connected_components, .topological_sort, .has_edge 0 1,
         .size, .empty]).elements) ∧
    (∀ u v : Int, v ∈ (runOps (mkGraph "directed" [(0, 1)])
        [.add_edge 1 2, .bridge 1, .cycle, .scc, .connected, .eulerian, .bipartite,
         .dfs 0, .bfs 1, .connected_components, .topological_sort, .has_edge 0 1,
         .size, .empty]).adj u →
      u ∈ (runOps (mkGraph "directed" [(0, 1)])
        [.add_edge 1 2, .bridge 1, .cycle, .scc, .connected, .eulerian, .bipartite,
         .dfs 0, .bfs 1, .connected_components, .topological_sort, .has_edge 0 1,
         .size, .empty]).elements ∧
      v ∈ (runOps (mkGraph "directed" [(0, 1)])
        [.add_edge 1 2, .bridge 1, .cycle, .scc, .connected, .eulerian, .bipartite,
         .dfs 0, .bfs 1, .connected_components, .topological_sort, .has_edge 0 1,
         .size, .empty]).elements) :=
  C8_amended_vertex_superset_invariant _ _ (by decide) (by decide)
